import Mathlib

/-!
# Appointment page: slot generation, availability reconciliation, booking

A shallow embedding of `src/pages/Appoinment.jsx`.

* `JSDate` models the local broken-down time of a JavaScript `Date` object
  (year, 0-based month, day of month, hours, minutes, seconds, milliseconds)
  together with the overflow behaviour of `setDate`, `setHours` and `setMinutes`.
* `Zone` lists the forward offset changes of the host time zone; a wall-clock time that
  such a change skips is read by `Date` as the time `shift` minutes later
  (`Zone.resolve`). The set-methods with the suffix `In` and the generator
  `getAvailableSlotsIn` take the zone; the forms without the suffix are the same
  functions in a zone without forward offset changes.
* `getAvailableSlots` is the seven-day slot generator, `fetchAvailabilityForDay`
  the availability reconciliation, `bookAppointment` the booking handler.
* `step` is the event-level transition function of the page state: the state updates of
  one handler or effect run are applied together, and a reconciliation that has been
  started stays pending until its `Promise.all` settles.
* The formatter of the time labels is a parameter `fmt` of the generator;
  `toLocaleTimeString` is the 12-hour rendering used in the concrete examples.
-/

namespace Appointment

/-! ## Calendar dates -/

/-- Local broken-down time of a JavaScript `Date`. `month` is 0-based, `date` is the
day of the month (1-based), as returned by `getMonth` and `getDate`. -/
structure JSDate where
  year : Nat
  month : Nat
  date : Nat
  hours : Nat
  minutes : Nat
  seconds : Nat
  ms : Nat
deriving DecidableEq, Repr

/-- Gregorian leap years. -/
def isLeapYear (y : Nat) : Bool :=
  (y % 4 == 0 && y % 100 != 0) || y % 400 == 0

/-- Number of days of the 0-based month `m` of year `y`. -/
def daysInMonth (y m : Nat) : Nat :=
  if m = 1 then (if isLeapYear y then 29 else 28)
  else if m = 3 ∨ m = 5 ∨ m = 8 ∨ m = 10 then 30
  else 31

/-- The dates a `Date` object can hold: every field within its calendar range. -/
def JSDate.Valid (d : JSDate) : Prop :=
  d.month < 12 ∧ 1 ≤ d.date ∧ d.date ≤ daysInMonth d.year d.month ∧
  d.hours < 24 ∧ d.minutes < 60 ∧ d.seconds < 60 ∧ d.ms < 1000

instance (d : JSDate) : Decidable d.Valid := by
  unfold JSDate.Valid; infer_instance

/-- Carry a day-of-month value past the end of the month into the following months
(and years), as `Date` does for an out-of-range day. -/
def rollDays : Nat → Nat → Nat → Nat → Nat × Nat × Nat
  | 0, y, m, n => (y, m, n)
  | fuel + 1, y, m, n =>
    if daysInMonth y m < n then
      if 11 ≤ m then rollDays fuel (y + 1) 0 (n - daysInMonth y m)
      else rollDays fuel y (m + 1) (n - daysInMonth y m)
    else (y, m, n)

/-- The calendar part of `Date.prototype.setDate(n)` for a day value `n ≥ 1` (the only
values this page passes): a value past the end of the month rolls into the next months,
the time of day is kept. This is `setDate` in a host zone without offset changes;
`JSDate.setDateIn` adds the resolution of the host zone. -/
def JSDate.setDate (d : JSDate) (n : Nat) : JSDate :=
  let r := rollDays n d.year d.month n
  { d with year := r.1, month := r.2.1, date := r.2.2 }

/-- The calendar part of `Date.prototype.setHours(h)`: minutes, seconds and milliseconds
are kept; an hour value of 24 or more carries into the day. -/
def JSDate.setHours (d : JSDate) (h : Nat) : JSDate :=
  { d.setDate (d.date + h / 24) with hours := h % 24 }

/-- The calendar part of `Date.prototype.setMinutes(m)`: seconds and milliseconds are
kept; a minute value of 60 or more carries into the hour. -/
def JSDate.setMinutes (d : JSDate) (m : Nat) : JSDate :=
  { d.setHours (d.hours + m / 60) with minutes := m % 60 }

/-- The calendar part of `setHours(h, m, s, ms)`, as in `endTime.setHours(21, 0, 0, 0)`. -/
def JSDate.setHours4 (d : JSDate) (h m s ms : Nat) : JSDate :=
  { ((d.setHours h).setMinutes m) with seconds := s, ms := ms }

/-- Time of day in milliseconds. -/
def JSDate.msOfDay (d : JSDate) : Nat :=
  ((d.hours * 60 + d.minutes) * 60 + d.seconds) * 1000 + d.ms

/-- The comparison `a < b` of two `Date` objects (by time value). -/
def JSDate.before (a b : JSDate) : Bool :=
  if a.year ≠ b.year then decide (a.year < b.year)
  else if a.month ≠ b.month then decide (a.month < b.month)
  else if a.date ≠ b.date then decide (a.date < b.date)
  else decide (a.msOfDay < b.msOfDay)

/-- Calendar day (year, month, date) of a date object. -/
def JSDate.day (d : JSDate) : Nat × Nat × Nat := (d.year, d.month, d.date)

/-! ## The host time zone -/

/-- A forward change of the offset of the host time zone: on the local day
`(year, month, date)` the wall-clock minutes from `start` up to (not including) `stop`
do not exist, and `Date` reads such a wall-clock time with the offset before the change,
that is `shift` minutes later. -/
structure Gap where
  year : Nat
  month : Nat
  date : Nat
  start : Nat
  stop : Nat
  shift : Nat
deriving DecidableEq, Repr

/-- The wall-clock time of `d` is one the change `g` skips. -/
def Gap.skips (g : Gap) (d : JSDate) : Bool :=
  decide (d.day = (g.year, g.month, g.date) ∧ g.start ≤ d.hours * 60 + d.minutes ∧
    d.hours * 60 + d.minutes < g.stop)

/-- The host time zone as far as the set-methods of `Date` observe it: its forward offset
changes. A backward change repeats wall-clock times and moves none. -/
abbrev Zone := List Gap

/-- The local time of the instant `Date` stores for the wall-clock time `d`: `d` itself, or
`d` moved forward by the shift of the change that skips it. -/
def Zone.resolve (z : Zone) (d : JSDate) : JSDate :=
  match z.find? (fun g => g.skips d) with
  | some g => d.setMinutes (d.minutes + g.shift)
  | none => d

/-- `Date.prototype.setDate(n)` in the host zone `z`. -/
def JSDate.setDateIn (z : Zone) (d : JSDate) (n : Nat) : JSDate := z.resolve (d.setDate n)

/-- `Date.prototype.setHours(h)` in the host zone `z`. -/
def JSDate.setHoursIn (z : Zone) (d : JSDate) (h : Nat) : JSDate := z.resolve (d.setHours h)

/-- `Date.prototype.setMinutes(m)` in the host zone `z`. -/
def JSDate.setMinutesIn (z : Zone) (d : JSDate) (m : Nat) : JSDate :=
  z.resolve (d.setMinutes m)

/-- `Date.prototype.setHours(h, m, s, ms)` in the host zone `z`. -/
def JSDate.setHours4In (z : Zone) (d : JSDate) (h m s ms : Nat) : JSDate :=
  z.resolve (d.setHours4 h m s ms)

/-- America/Nuuk in March 2026: on Saturday 28 March the clocks go from 23:00 to 00:00 of
Sunday 29 March, so the wall-clock times 23:00 to 23:59 of 28 March do not exist. -/
def nuukMarch2026 : Zone :=
  [{ year := 2026, month := 2, date := 28, start := 1380, stop := 1440, shift := 60 }]

/-! ## Slot generation -/

/-- One entry of a day's `timeSlots`: `{ datetime, time }`. -/
structure Slot where
  datetime : JSDate
  time : String
deriving DecidableEq, Repr

/-- A number below 100 written with two digits. -/
def twoDigit (n : Nat) : String := if n < 10 then "0" ++ toString n else toString n

/-- Modelled from the spec: `toLocaleTimeString([], {hour: "2-digit", minute: "2-digit"})`
is a platform function; the spec describes its result as "localized hour:minute with
AM/PM". This is the 12-hour rendering with two-digit fields. -/
def toLocaleTimeString (h m : Nat) : String :=
  twoDigit (if h % 12 = 0 then 12 else h % 12) ++ ":" ++ twoDigit m ++
    (if h < 12 then " AM" else " PM")

/-- The `while (currentDate < endTime)` loop of `getAvailableSlots`: push a slot for the
cursor, then advance the cursor by 30 minutes. `none` when the fuel runs out. Here and in
`timeSlotsForDay` and `getAvailableSlots` the host zone has no forward offset change;
`slotLoopIn`, `timeSlotsForDayIn` and `getAvailableSlotsIn` take the zone. -/
def slotLoop (fmt : Nat → Nat → String) :
    Nat → JSDate → JSDate → List Slot → Option (List Slot)
  | 0, _, _, _ => none
  | fuel + 1, currentDate, endTime, timeSlots =>
    if currentDate.before endTime then
      slotLoop fmt fuel (currentDate.setMinutes (currentDate.minutes + 30)) endTime
        (timeSlots ++ [{ datetime := currentDate, time := fmt currentDate.hours currentDate.minutes }])
    else some timeSlots

/-- Body of the `for` loop of `getAvailableSlots` for offset `i`: the day's `timeSlots`. -/
def timeSlotsForDay (fuel : Nat) (fmt : Nat → Nat → String) (today : JSDate) (i : Nat) :
    Option (List Slot) :=
  let currentDate := today.setDate (today.date + i)
  let endTime := currentDate.setHours4 21 0 0 0
  let currentDate :=
    if today.date = currentDate.date then
      let c := currentDate.setHours (if currentDate.hours > 5 then currentDate.hours + 1 else 5)
      c.setMinutes (if c.minutes > 30 then 30 else 0)
    else
      (currentDate.setHours 5).setMinutes 0
  slotLoop fmt fuel currentDate endTime []

/-- The window `docSlots` left by `getAvailableSlots` when `new Date()` is `today`:
starting from `[]`, each non-empty day list is appended. -/
def getAvailableSlots (fuel : Nat) (fmt : Nat → Nat → String) (today : JSDate) :
    Option (List (List Slot)) :=
  (List.range 7).foldlM
    (fun docSlots i => do
      let timeSlots ← timeSlotsForDay fuel fmt today i
      pure (if timeSlots.length > 0 then docSlots ++ [timeSlots] else docSlots))
    []

/-- The `while (currentDate < endTime)` loop of `getAvailableSlots` in the host zone `z`. -/
def slotLoopIn (z : Zone) (fmt : Nat → Nat → String) :
    Nat → JSDate → JSDate → List Slot → Option (List Slot)
  | 0, _, _, _ => none
  | fuel + 1, currentDate, endTime, timeSlots =>
    if currentDate.before endTime then
      slotLoopIn z fmt fuel (currentDate.setMinutesIn z (currentDate.minutes + 30)) endTime
        (timeSlots ++ [{ datetime := currentDate, time := fmt currentDate.hours currentDate.minutes }])
    else some timeSlots

/-- Body of the `for` loop of `getAvailableSlots` for offset `i` in the host zone `z`. -/
def timeSlotsForDayIn (z : Zone) (fuel : Nat) (fmt : Nat → Nat → String) (today : JSDate)
    (i : Nat) : Option (List Slot) :=
  let currentDate := today.setDateIn z (today.date + i)
  let endTime := currentDate.setHours4In z 21 0 0 0
  let currentDate :=
    if today.date = currentDate.date then
      let c := currentDate.setHoursIn z
        (if currentDate.hours > 5 then currentDate.hours + 1 else 5)
      c.setMinutesIn z (if c.minutes > 30 then 30 else 0)
    else
      (currentDate.setHoursIn z 5).setMinutesIn z 0
  slotLoopIn z fmt fuel currentDate endTime []

/-- The window `docSlots` left by `getAvailableSlots` in the host zone `z` when `new Date()`
is `today`. -/
def getAvailableSlotsIn (z : Zone) (fuel : Nat) (fmt : Nat → Nat → String) (today : JSDate) :
    Option (List (List Slot)) :=
  (List.range 7).foldlM
    (fun docSlots i => do
      let timeSlots ← timeSlotsForDayIn z fuel fmt today i
      pure (if timeSlots.length > 0 then docSlots ++ [timeSlots] else docSlots))
    []

/-- Clock time (hour, minute) of a slot. -/
def Slot.clock (s : Slot) : Nat × Nat := (s.datetime.hours, s.datetime.minutes)

/-- Calendar day (year, month, date) of a slot. -/
def Slot.day (s : Slot) : Nat × Nat × Nat := (s.datetime.year, s.datetime.month, s.datetime.date)

/-! ## Availability reconciliation -/

/-- Observable effects of the handlers: notifications, console output, navigation and the
requests to the collaborators. -/
inductive Effect where
  | toastWarn (msg : String)
  | toastError (msg : String)
  | toastSuccess (msg : String)
  | consoleLog (msg : String)
  | navigate (path : String)
  | postBooking (docId slotDate slotTime : String)
  | getDoctorsData
deriving DecidableEq, Repr

/-- The date identifier `date.getDate() + "_" + (date.getMonth() + 1) + "_" + date.getFullYear()`. -/
def slotDateOf (date : JSDate) : String :=
  toString date.date ++ "_" ++ toString (date.month + 1) ++ "_" ++ toString date.year

/-- The object `availableSlots`: a finite map from string keys to booleans. -/
abbrev AvailabilityMap := String → Option Bool

/-- The empty object `{}`. -/
def AvailabilityMap.empty : AvailabilityMap := fun _ => none

/-- The assignment `availability[key] = value`. -/
def AvailabilityMap.set (o : AvailabilityMap) (key : String) (value : Bool) : AvailabilityMap :=
  fun k => if k = key then some value else o k

/-- The answer of the availability endpoint to one request: `data.success`, or the error
thrown by the request (transport failure or error status). -/
abbrev Response := Except String Bool

/-- The function `checkSlotAvailability`: the result of the request, `false` with a console
line and a toast when the request throws. -/
def checkSlotAvailability (response : Response) : Bool × List Effect :=
  match response with
  | .ok success => (success, [])
  | .error msg => (false, [.consoleLog msg, .toastError msg])

/-- The array `results` of `fetchAvailabilityForDay`: for the slot at position `i` of the
day list the pair `{ key, value }`, `post i docId slotDate slotTime` being the answer to
the request issued for that slot. -/
def checkAll (post : Nat → String → String → String → Response) (docId slotDate : String) :
    Nat → List Slot → List ((String × Bool) × List Effect)
  | _, [] => []
  | i, slot :: rest =>
    let r := checkSlotAvailability (post i docId slotDate slot.time)
    ((slotDate ++ "_" ++ slot.time, r.1), r.2) :: checkAll post docId slotDate (i + 1) rest

/-- The object built by `results.forEach(({ key, value }) => availability[key] = value)`. -/
def buildAvailability (results : List (String × Bool)) : AvailabilityMap :=
  results.foldl (fun availability r => availability.set r.1 r.2) AvailabilityMap.empty

/-- The function `fetchAvailabilityForDay(dayIndex)` run to completion against the window
`docSlots`: the new value of `availableSlots` with the effects of the queries. Without an
entry at `dayIndex` the state is left as it is; an entry without a first slot makes
`docSlots[dayIndex][0].datetime` throw. -/
def fetchAvailabilityForDay (post : Nat → String → String → String → Response)
    (docId : String) (docSlots : List (List Slot)) (availableSlots : AvailabilityMap)
    (dayIndex : Nat) : Except String (AvailabilityMap × List Effect) :=
  match docSlots[dayIndex]? with
  | none => .ok (availableSlots, [])
  | some [] => .error "TypeError: Cannot read properties of undefined (reading 'datetime')"
  | some (first :: rest) =>
    let slotDate := slotDateOf first.datetime
    let results := checkAll post docId slotDate 0 (first :: rest)
    .ok (buildAvailability (results.map (·.1)), (results.map (·.2)).flatten)

/-- The expression `availableSlots[slotDate + "_" + item.time]` of the renderer for the
slot `item` of the selected day. -/
def isAvailable (docSlots : List (List Slot)) (availableSlots : AvailabilityMap)
    (slotIndex : Nat) (item : Slot) : Option Bool :=
  match docSlots[slotIndex]? with
  | some (first :: _) => availableSlots (slotDateOf first.datetime ++ "_" ++ item.time)
  | _ => none

/-- The time labels the selector renders: the slots of the selected day whose lookup is
truthy. -/
def renderedTimes (docSlots : List (List Slot)) (availableSlots : AvailabilityMap)
    (slotIndex : Nat) : List String :=
  match docSlots[slotIndex]? with
  | some day =>
    (day.filter (fun item => isAvailable docSlots availableSlots slotIndex item = some true)).map
      Slot.time
  | none => []

/-! ## Booking -/

/-- The answer of the booking endpoint: `{ success, message }`, or the error thrown. -/
abbrev BookingResponse := Except String (Bool × String)

/-- A token is falsy when it is absent or the empty string. -/
def tokenMissing (token : Option String) : Bool :=
  match token with
  | none => true
  | some t => t == ""

/-- The handler `bookAppointment`: the effects it performs, in order. The handler sets no
state of the page. `respond docId slotDate slotTime` is the answer of the booking
endpoint. -/
def bookAppointment (token : Option String) (respond : String → String → String → BookingResponse)
    (docId : String) (docSlots : List (List Slot)) (slotIndex : Nat) (slotTime : String) :
    List Effect :=
  if tokenMissing token then
    [.toastWarn "Login to book appointment", .navigate "/login"]
  else
    match docSlots[slotIndex]? with
    | some (first :: _) =>
      let slotDate := slotDateOf first.datetime
      .postBooking docId slotDate slotTime ::
        (match respond docId slotDate slotTime with
         | .ok (true, message) =>
           [.toastSuccess message, .getDoctorsData, .navigate "/my-appoinments"]
         | .ok (false, message) => [.toastError message]
         | .error msg => [.consoleLog msg, .toastError msg])
    | _ =>
      [.consoleLog "TypeError: Cannot read properties of undefined",
       .toastError "TypeError: Cannot read properties of undefined"]

/-! ## The page state and its events -/

/-- A running `fetchAvailabilityForDay(dayIndex)`: the window `docSlots` of the render that
started it and its argument. -/
structure Batch where
  docSlots : List (List Slot)
  dayIndex : Nat

/-- The state of the component: the four `useState` cells and the reconciliations that
have been started and have not completed. -/
structure Page where
  docSlots : List (List Slot)
  slotIndex : Nat
  slotTime : String
  availableSlots : AvailabilityMap
  pending : List Batch

/-- The state after the first render: `useState([])`, `useState(0)`, `useState("")`,
`useState({})`; the reconciliation of the first render finds no entry and returns. -/
def Page.init : Page :=
  { docSlots := [], slotIndex := 0, slotTime := "", availableSlots := AvailabilityMap.empty,
    pending := [] }

/-- The effect on `[slotIndex, docSlots]`: start `fetchAvailabilityForDay(slotIndex)` and
reset the chosen time. -/
def runEffect (s : Page) : Page :=
  { s with pending := s.pending ++ [{ docSlots := s.docSlots, dayIndex := s.slotIndex }],
           slotTime := "" }

/-- The events of the page. -/
inductive Event where
  /-- The function `getAvailableSlots` ran with `new Date()` equal to `now`. -/
  | slotsGenerated (now : JSDate)
  /-- A click on the day at `index`: `setSlotIndex(index)`. -/
  | daySelected (index : Nat)
  /-- The pending reconciliation at position `k` settled its `Promise.all`, `post` giving
  the answers of its requests. -/
  | batchCompleted (k : Nat) (post : Nat → String → String → String → Response)
  /-- A click on a rendered time: `setSlotTime(item.time)`. -/
  | timeChosen (time : String)
  /-- A click on the booking button. -/
  | bookClicked (token : Option String) (respond : String → String → String → BookingResponse)

/-- One event of the page: the next state and the effects performed, `none` when the event
cannot occur in the state. -/
def step (fuel : Nat) (fmt : Nat → Nat → String) (docId : String) (s : Page) :
    Event → Option (Page × List Effect)
  | .slotsGenerated now =>
    if now.Valid then
      match getAvailableSlots fuel fmt now with
      | some w => some (runEffect { s with docSlots := w }, [])
      | none => none
    else none
  | .daySelected index =>
    if index < s.docSlots.length then
      if index = s.slotIndex then some (s, [])
      else some (runEffect { s with slotIndex := index }, [])
    else none
  | .batchCompleted k post =>
    match s.pending[k]? with
    | none => none
    | some b =>
      match fetchAvailabilityForDay post docId b.docSlots s.availableSlots b.dayIndex with
      | .ok (m, effects) =>
        some ({ s with availableSlots := m, pending := s.pending.eraseIdx k }, effects)
      | .error _ => some ({ s with pending := s.pending.eraseIdx k }, [])
  | .timeChosen time =>
    if time ∈ renderedTimes s.docSlots s.availableSlots s.slotIndex then
      some ({ s with slotTime := time }, [])
    else none
  | .bookClicked token respond =>
    some (s, bookAppointment token respond docId s.docSlots s.slotIndex s.slotTime)

/-- The states the page can reach from its first render. -/
inductive Reachable (fuel : Nat) (fmt : Nat → Nat → String) (docId : String) : Page → Prop where
  | init : Reachable fuel fmt docId Page.init
  | step {s s' : Page} {e : Event} {effects : List Effect} :
      Reachable fuel fmt docId s → step fuel fmt docId s e = some (s', effects) →
      Reachable fuel fmt docId s'

/-- Run a sequence of events; `none` when one of them cannot occur. -/
def run (fuel : Nat) (fmt : Nat → Nat → String) (docId : String) : Page → List Event → Option Page
  | s, [] => some s
  | s, e :: es =>
    match step fuel fmt docId s e with
    | some (s', _) => run fuel fmt docId s' es
    | none => none

/-- The keys of the map are the keys of the slots of the day list `day`. -/
def KeysOfDay (m : AvailabilityMap) (day : List Slot) : Prop :=
  ∀ key, m key ≠ none ↔
    ∃ first ∈ day.head?, ∃ item ∈ day, key = slotDateOf first.datetime ++ "_" ++ item.time

/-- The map holds no key of a day other than the selected one: every key is the key of a
slot of the selected day. -/
def KeysOfSelectedDay (s : Page) : Prop :=
  ∀ key, s.availableSlots key ≠ none →
    ∃ day, s.docSlots[s.slotIndex]? = some day ∧
      ∃ first ∈ day.head?, ∃ item ∈ day, key = slotDateOf first.datetime ++ "_" ++ item.time

/-- A chosen time is the key of an available slot of the selected day. -/
def ChosenTimeAvailable (s : Page) : Prop :=
  s.slotTime ≠ "" →
    ∃ day first, s.docSlots[s.slotIndex]? = some day ∧ day.head? = some first ∧
      s.availableSlots (slotDateOf first.datetime ++ "_" ++ s.slotTime) = some true

/-- A window the generator can have produced: the initial `[]` or the result for a date. -/
def Generated (fuel : Nat) (fmt : Nat → Nat → String) (w : List (List Slot)) : Prop :=
  w = [] ∨ ∃ now : JSDate, now.Valid ∧ getAvailableSlots fuel fmt now = some w

/-- The map is empty or holds exactly the keys of one day list of a generated window. -/
def OneBatchMap (fuel : Nat) (fmt : Nat → Nat → String) (m : AvailabilityMap) : Prop :=
  m = AvailabilityMap.empty ∨
    ∃ (w : List (List Slot)) (i : Nat) (first : Slot) (rest : List Slot),
      Generated fuel fmt w ∧ w[i]? = some (first :: rest) ∧ KeysOfDay m (first :: rest)

/-- A response function that answers every request with `success`. -/
def allAvailable : Nat → String → String → String → Response := fun _ _ _ _ => .ok true

/-- A response function that answers every request with `success: false`. -/
def noneAvailable : Nat → String → String → String → Response := fun _ _ _ _ => .ok false

/-- Invariant of the page: the map comes from one batch, and the windows of the state and
of the pending batches are generated ones. -/
def PageInv (fuel : Nat) (fmt : Nat → Nat → String) (s : Page) : Prop :=
  OneBatchMap fuel fmt s.availableSlots ∧
  (∀ b ∈ s.pending, Generated fuel fmt b.docSlots) ∧
  Generated fuel fmt s.docSlots

/-- A chosen time is the label of a slot of the selected day. -/
def ChosenTimeOfSelectedDay (s : Page) : Prop :=
  s.slotTime ≠ "" → ∃ day, s.docSlots[s.slotIndex]? = some day ∧ s.slotTime ∈ day.map Slot.time

/-! ## Auxiliary definitions used in the statements -/

/-- The month after month `m` of year `y`. -/
def nextMonth (y m : Nat) : Nat × Nat := if 11 ≤ m then (y + 1, 0) else (y, m + 1)

/-- The calendar day `i` days after the day of `d`, for an offset within one month. -/
def dayAfter (d : JSDate) (i : Nat) : Nat × Nat × Nat :=
  if d.date + i ≤ daysInMonth d.year d.month then (d.year, d.month, d.date + i)
  else ((nextMonth d.year d.month).1, (nextMonth d.year d.month).2,
    d.date + i - daysInMonth d.year d.month)

/-- The date `d` with its clock set to `t` minutes after midnight. -/
def atClock (d : JSDate) (t : Nat) : JSDate :=
  { d with hours := t / 60, minutes := t % 60 }

/-- The slot pushed for cursor `c`. -/
def mkSlot (fmt : Nat → Nat → String) (c : JSDate) : Slot :=
  { datetime := c, time := fmt c.hours c.minutes }

/-- The `n` half-hour slots of day `d` starting `t` minutes after midnight. -/
def slotsFrom (fmt : Nat → Nat → String) (d : JSDate) (t n : Nat) : List Slot :=
  (List.range n).map (fun k => mkSlot fmt (atClock d (t + 30 * k)))

/-- Number of half-hour steps from minute `t` that start strictly before 21:00. -/
def slotCount (t : Nat) : Nat := (1260 - t + 29) / 30

/-- Today's start hour: `getHours() > 5 ? getHours() + 1 : 5`. -/
def startHour (h : Nat) : Nat := if h > 5 then h + 1 else 5

/-- Today's start minute: `getMinutes() > 30 ? 30 : 0`. -/
def startMinute (m : Nat) : Nat := if m > 30 then 30 else 0

/-- The date object for the day `i` days after `d`, keeping the time of day. -/
def dayOf (d : JSDate) (i : Nat) : JSDate :=
  { d with year := (dayAfter d i).1, month := (dayAfter d i).2.1, date := (dayAfter d i).2.2 }

/-- The day list the generator computes for offset `i`, in closed form. -/
def dayList (fmt : Nat → Nat → String) (today : JSDate) (i : Nat) : List Slot :=
  if i = 0 then
    slotsFrom fmt today (startHour today.hours * 60 + startMinute today.minutes)
      (slotCount (startHour today.hours * 60 + startMinute today.minutes))
  else slotsFrom fmt (dayOf today i) 300 32

/-- Minutes after midnight of a slot's clock time. -/
def Slot.minuteOfDay (s : Slot) : Nat := s.datetime.hours * 60 + s.datetime.minutes

/-- Value of a list of decimal digit characters read after the prefix value `acc`. -/
def digitsValue (acc : Nat) (l : List Char) : Nat :=
  l.foldl (fun a c => 10 * a + (c.toNat - 48)) acc

/-- The zone keeps offset `i` of the generator on its day: the date object of offset `i` is
on calendar day `today + i`, and no forward change skips a wall-clock time from 05:00 to
21:00 of that day. -/
def OffsetKept (z : Zone) (today : JSDate) (i : Nat) : Prop :=
  (today.setDateIn z (today.date + i)).day = dayAfter today i ∧
  ∀ g ∈ z, (g.year, g.month, g.date) = dayAfter today i → g.stop ≤ 300 ∨ 1260 < g.start

/-! ## Calendar lemmas -/

theorem daysInMonth_ge (y m : Nat) : 28 ≤ daysInMonth y m := by
  unfold daysInMonth; split_ifs <;> omega

theorem daysInMonth_le (y m : Nat) : daysInMonth y m ≤ 31 := by
  unfold daysInMonth; split_ifs <;> omega

theorem rollDays_of_le (fuel y m n : Nat) (h : n ≤ daysInMonth y m) :
    rollDays fuel y m n = (y, m, n) := by
  cases fuel with
  | zero => rfl
  | succ f => simp [rollDays, Nat.not_lt.mpr h]

theorem rollDays_once (fuel y m n : Nat) (h1 : daysInMonth y m < n)
    (h2 : n ≤ daysInMonth y m + 28) (hf : 1 ≤ fuel) :
    rollDays fuel y m n = ((nextMonth y m).1, (nextMonth y m).2, n - daysInMonth y m) := by
  obtain ⟨f, rfl⟩ : ∃ f, fuel = f + 1 := ⟨fuel - 1, by omega⟩
  have h0 := daysInMonth_ge (y + 1) 0
  have h3 := daysInMonth_ge y (m + 1)
  unfold nextMonth
  by_cases hm : 11 ≤ m
  · simp only [rollDays, h1, hm, if_true]
    exact rollDays_of_le _ _ _ _ (by omega)
  · simp only [rollDays, h1, hm, if_true, if_false]
    exact rollDays_of_le _ _ _ _ (by omega)

theorem setDate_add (d : JSDate) (i : Nat)
    (hd2 : d.date ≤ daysInMonth d.year d.month) (hi : i ≤ 28) :
    d.setDate (d.date + i) =
      { d with year := (dayAfter d i).1, month := (dayAfter d i).2.1, date := (dayAfter d i).2.2 } := by
  unfold JSDate.setDate dayAfter
  by_cases h : d.date + i ≤ daysInMonth d.year d.month
  · simp [rollDays_of_le _ _ _ _ h, h]
  · rw [rollDays_once _ _ _ _ (by omega) (by omega) (by omega)]
    simp [h]

theorem setDate_same (d : JSDate) (hd : d.date ≤ daysInMonth d.year d.month) :
    d.setDate d.date = d := by
  unfold JSDate.setDate
  rw [rollDays_of_le _ _ _ _ hd]

theorem setHours_lt (d : JSDate) (h : Nat) (hd : d.date ≤ daysInMonth d.year d.month)
    (hh : h < 24) : d.setHours h = { d with hours := h } := by
  unfold JSDate.setHours
  rw [Nat.div_eq_of_lt hh, Nat.add_zero, setDate_same d hd, Nat.mod_eq_of_lt hh]

theorem setMinutes_carry (d : JSDate) (m : Nat) (hd : d.date ≤ daysInMonth d.year d.month)
    (hh : d.hours + m / 60 < 24) :
    d.setMinutes m = { d with hours := d.hours + m / 60, minutes := m % 60 } := by
  unfold JSDate.setMinutes
  rw [setHours_lt d _ hd hh]

theorem setHours4_lt (d : JSDate) (h s ms : Nat) (hd : d.date ≤ daysInMonth d.year d.month)
    (hh : h < 24) :
    d.setHours4 h 0 s ms = { d with hours := h, minutes := 0, seconds := s, ms := ms } := by
  unfold JSDate.setHours4
  rw [setHours_lt d h hd hh, setMinutes_carry { d with hours := h } 0 hd (by simpa using hh)]
  simp

/-- The day `i ≤ 28` days after a valid date is a valid calendar day. -/
theorem dayAfter_valid (d : JSDate) (i : Nat) (hm : d.month < 12) (hd1 : 1 ≤ d.date)
    (hd2 : d.date ≤ daysInMonth d.year d.month) (hi : i ≤ 28) :
    (dayAfter d i).2.1 < 12 ∧ 1 ≤ (dayAfter d i).2.2 ∧
      (dayAfter d i).2.2 ≤ daysInMonth (dayAfter d i).1 (dayAfter d i).2.1 := by
  unfold dayAfter
  by_cases h : d.date + i ≤ daysInMonth d.year d.month
  · refine ⟨?_, ?_, ?_⟩ <;> simp [h] <;> omega
  · have h0 := daysInMonth_ge (nextMonth d.year d.month).1 (nextMonth d.year d.month).2
    have h1 := daysInMonth_le d.year d.month
    simp only [h, if_false]
    refine ⟨?_, by omega, by omega⟩
    unfold nextMonth; split_ifs <;> simp; omega

/-- A day of the month never repeats within the next six days. -/
theorem dayAfter_date_ne (d : JSDate) (i : Nat) (hi1 : 1 ≤ i) (hi : i ≤ 6) :
    (dayAfter d i).2.2 ≠ d.date := by
  have h0 := daysInMonth_ge d.year d.month
  unfold dayAfter
  split_ifs <;> simp <;> omega

/-! ## The slot loop -/

theorem slotsFrom_succ (fmt : Nat → Nat → String) (d : JSDate) (t n : Nat) :
    slotsFrom fmt d t (n + 1) = mkSlot fmt (atClock d t) :: slotsFrom fmt d (t + 30) n := by
  unfold slotsFrom
  rw [List.range_succ_eq_map]
  simp only [List.map_cons, List.map_map, Nat.mul_zero, Nat.add_zero]
  congr 1
  apply List.map_congr_left
  intro k _
  simp only [Function.comp]
  congr 2
  omega

theorem atClock_before (d : JSDate) (t : Nat) (hs : d.seconds < 60) (hms : d.ms < 1000)
    (ht : t < 1440) :
    (atClock d t).before { d with hours := 21, minutes := 0, seconds := 0, ms := 0 }
      = decide (t < 1260) := by
  simp only [JSDate.before, atClock, JSDate.msOfDay, ne_eq, not_true_eq_false, if_false]
  congr 1
  apply propext
  constructor <;> intro h <;> omega

theorem atClock_step (d : JSDate) (t : Nat) (hd : d.date ≤ daysInMonth d.year d.month)
    (ht : t + 30 < 1440) :
    (atClock d t).setMinutes ((atClock d t).minutes + 30) = atClock d (t + 30) := by
  rw [setMinutes_carry (atClock d t) _ hd (by simp only [atClock]; omega)]
  simp only [atClock]
  congr 1 <;> omega

/-- The loop started on day `d` at minute `t` pushes the half-hour slots before 21:00. -/
theorem slotLoop_atClock (fmt : Nat → Nat → String) (d : JSDate)
    (hd : d.date ≤ daysInMonth d.year d.month) (hs : d.seconds < 60) (hms : d.ms < 1000) :
    ∀ (n fuel t : Nat) (acc : List Slot), n < fuel → t < 1440 → 1260 ≤ t + 30 * n →
      (∀ k, k < n → t + 30 * k < 1260) →
      slotLoop fmt fuel (atClock d t)
        { d with hours := 21, minutes := 0, seconds := 0, ms := 0 } acc
        = some (acc ++ slotsFrom fmt d t n) := by
  intro n
  induction n with
  | zero =>
    intro fuel t acc hf ht h1 _
    obtain ⟨f, rfl⟩ : ∃ f, fuel = f + 1 := ⟨fuel - 1, by omega⟩
    have hb := atClock_before d t hs hms ht
    have : ¬ t < 1260 := by omega
    simp only [slotLoop, hb, this, decide_False, slotsFrom, List.range_zero, List.map_nil,
      List.append_nil]
    rfl
  | succ n ih =>
    intro fuel t acc hf ht h1 h2
    obtain ⟨f, rfl⟩ : ∃ f, fuel = f + 1 := ⟨fuel - 1, by omega⟩
    have hb := atClock_before d t hs hms ht
    have h0 : t < 1260 := by simpa using h2 0 (by omega)
    simp only [slotLoop, hb, h0, decide_True, if_true]
    rw [atClock_step d t hd (by omega)]
    rw [ih f (t + 30) _ (by omega) (by omega) (by omega)
      (fun k hk => by have := h2 (k + 1) (by omega); omega)]
    rw [slotsFrom_succ, List.append_assoc]
    rfl

theorem slotCount_spec (t : Nat) :
    1260 ≤ t + 30 * slotCount t ∧ ∀ k, k < slotCount t → t + 30 * k < 1260 := by
  unfold slotCount
  constructor
  · omega
  · intro k hk; omega

/-! ## The host time zone: lemmas -/

theorem resolve_eq_self (z : Zone) (d : JSDate) (h : ∀ g ∈ z, g.skips d = false) :
    z.resolve d = d := by
  unfold Zone.resolve
  have : z.find? (fun g => g.skips d) = none := by
    rw [List.find?_eq_none]
    intro g hg
    simp [h g hg]
  rw [this]

theorem rollDays_valid : ∀ (fuel y m n : Nat), m < 12 → 1 ≤ n → n ≤ fuel →
    (rollDays fuel y m n).2.1 < 12 ∧ 1 ≤ (rollDays fuel y m n).2.2 ∧
      (rollDays fuel y m n).2.2 ≤
        daysInMonth (rollDays fuel y m n).1 (rollDays fuel y m n).2.1 := by
  intro fuel
  induction fuel with
  | zero => intro y m n _ h1 h2; omega
  | succ f ih =>
    intro y m n hm h1 h2
    have h0 := daysInMonth_ge y m
    simp only [rollDays]
    split_ifs with ha hb
    · exact ih (y + 1) 0 _ (by omega) (by omega) (by omega)
    · exact ih y (m + 1) _ (by omega) (by omega) (by omega)
    · exact ⟨hm, h1, Nat.not_lt.mp ha⟩

theorem setMinutes_valid (d : JSDate) (m : Nat) (hv : d.Valid) : (d.setMinutes m).Valid := by
  obtain ⟨hm, hd1, hd2, hh, hmin, hs, hms⟩ := hv
  have hr := rollDays_valid (d.date + (d.hours + m / 60) / 24) d.year d.month
    (d.date + (d.hours + m / 60) / 24) hm (by omega) (le_refl _)
  refine ⟨hr.1, hr.2.1, hr.2.2, ?_, ?_, hs, hms⟩
  · exact Nat.mod_lt _ (by omega)
  · exact Nat.mod_lt _ (by omega)

theorem resolve_valid (z : Zone) (d : JSDate) (hv : d.Valid) : (z.resolve d).Valid := by
  unfold Zone.resolve
  split
  · exact setMinutes_valid d _ hv
  · exact hv

theorem slotLoopIn_atClock (z : Zone) (fmt : Nat → Nat → String) (d : JSDate)
    (hd : d.date ≤ daysInMonth d.year d.month) (hs : d.seconds < 60) (hms : d.ms < 1000) :
    ∀ (n fuel t : Nat) (acc : List Slot), n < fuel → t < 1440 → 1260 ≤ t + 30 * n →
      (∀ k, k < n → t + 30 * k < 1260) →
      (∀ k, 1 ≤ k → k ≤ n → z.resolve (atClock d (t + 30 * k)) = atClock d (t + 30 * k)) →
      slotLoopIn z fmt fuel (atClock d t)
        { d with hours := 21, minutes := 0, seconds := 0, ms := 0 } acc
        = some (acc ++ slotsFrom fmt d t n) := by
  intro n
  induction n with
  | zero =>
    intro fuel t acc hf ht h1 _ _
    obtain ⟨f, rfl⟩ : ∃ f, fuel = f + 1 := ⟨fuel - 1, by omega⟩
    have hb := atClock_before d t hs hms ht
    have : ¬ t < 1260 := by omega
    simp only [slotLoopIn, hb, this, decide_False, slotsFrom, List.range_zero, List.map_nil,
      List.append_nil]
    rfl
  | succ n ih =>
    intro fuel t acc hf ht h1 h2 h3
    obtain ⟨f, rfl⟩ : ∃ f, fuel = f + 1 := ⟨fuel - 1, by omega⟩
    have hb := atClock_before d t hs hms ht
    have h0 : t < 1260 := by simpa using h2 0 (by omega)
    have hstep : (atClock d t).setMinutesIn z ((atClock d t).minutes + 30)
        = atClock d (t + 30) := by
      unfold JSDate.setMinutesIn
      rw [atClock_step d t hd (by omega)]
      simpa using h3 1 (by omega) (by omega)
    simp only [slotLoopIn, hb, h0, decide_True, if_true]
    rw [hstep]
    rw [ih f (t + 30) _ (by omega) (by omega) (by omega)
      (fun k hk => by have := h2 (k + 1) (by omega); omega)
      (fun k hk1 hk2 => by
        have := h3 (k + 1) (by omega) (by omega)
        rwa [show t + 30 * (k + 1) = t + 30 + 30 * k by omega] at this)]
    rw [slotsFrom_succ, List.append_assoc]
    rfl

/-! ## The day lists -/

theorem dayOf_zero (d : JSDate) (hd : d.date ≤ daysInMonth d.year d.month) : dayOf d 0 = d := by
  unfold dayOf dayAfter
  simp [hd]

theorem timeSlotsForDay_future (fuel : Nat) (fmt : Nat → Nat → String) (today : JSDate)
    (hv : today.Valid) (i : Nat) (hi1 : 1 ≤ i) (hi6 : i ≤ 6) (hf : 33 ≤ fuel) :
    timeSlotsForDay fuel fmt today i = some (slotsFrom fmt (dayOf today i) 300 32) := by
  obtain ⟨hm, hd1, hd2, hh, hmin, hs, hms⟩ := hv
  have hval := dayAfter_valid today i hm hd1 hd2 (by omega)
  have hne := dayAfter_date_ne today i hi1 hi6
  have hcd : (dayOf today i).date ≤ daysInMonth (dayOf today i).year (dayOf today i).month :=
    hval.2.2
  unfold timeSlotsForDay
  simp only []
  rw [setDate_add today i hd2 (by omega)]
  change slotLoop fmt fuel
    (if today.date = (dayOf today i).date then _ else ((dayOf today i).setHours 5).setMinutes 0)
    ((dayOf today i).setHours4 21 0 0 0) [] = _
  rw [if_neg (fun h => hne h.symm), setHours4_lt _ 21 0 0 hcd (by omega),
    setHours_lt _ 5 hcd (by omega),
    setMinutes_carry { dayOf today i with hours := 5 } 0 hcd (by simp)]
  have h := slotLoop_atClock fmt (dayOf today i) hcd hs hms 32 fuel 300 [] (by omega)
    (by omega) (by omega) (fun k hk => by omega)
  simpa [atClock] using h

/-- A cursor on the day after `d` is not before 21:00 of `d`. -/
theorem before_next_day (d c : JSDate)
    (hc : (c.year, c.month, c.date) = dayAfter d 1) :
    c.before { d with hours := 21, minutes := 0, seconds := 0, ms := 0 } = false := by
  unfold dayAfter nextMonth at hc
  simp only [JSDate.before]
  have h0 := daysInMonth_ge d.year d.month
  split_ifs at hc <;> simp only [Prod.mk.injEq] at hc <;> obtain ⟨h1, h2, h3⟩ := hc
  · rw [if_neg (by simp [h1]), if_neg (by simp [h2]), if_pos (by simp [h3])]
    simp [h3]
  · rw [if_pos (by simp [h1])]
    simp [h1]
  · rw [if_neg (by simp [h1]), if_pos (by simp [h2])]
    simp [h2]

theorem timeSlotsForDay_today (fuel : Nat) (fmt : Nat → Nat → String) (today : JSDate)
    (hv : today.Valid) (hf : 33 ≤ fuel) :
    timeSlotsForDay fuel fmt today 0 = some (slotsFrom fmt today
      (startHour today.hours * 60 + startMinute today.minutes)
      (slotCount (startHour today.hours * 60 + startMinute today.minutes))) := by
  obtain ⟨hm, hd1, hd2, hh, hmin, hs, hms⟩ := hv
  have hsm : startMinute today.minutes < 60 := by unfold startMinute; split_ifs <;> omega
  have hsh : 5 ≤ startHour today.hours ∧ startHour today.hours ≤ 24 := by
    unfold startHour; split_ifs <;> omega
  unfold timeSlotsForDay
  simp only [Nat.add_zero]
  rw [setDate_same today hd2, setHours4_lt _ 21 0 0 hd2 (by omega)]
  simp only [if_true]
  change slotLoop fmt fuel
    ((today.setHours (startHour today.hours)).setMinutes
      (if (today.setHours (startHour today.hours)).minutes > 30 then 30 else 0)) _ [] = _
  obtain ⟨f, rfl⟩ : ∃ f, fuel = f + 1 := ⟨fuel - 1, by omega⟩
  by_cases h24 : startHour today.hours = 24
  · -- the start hour carries into the next day
    have hval := dayAfter_valid today 1 hm hd1 hd2 (by omega)
    have e1 : today.setHours (startHour today.hours) = { dayOf today 1 with hours := 0 } := by
      unfold JSDate.setHours
      rw [h24, setDate_add today 1 hd2 (by omega)]
      rfl
    rw [e1]
    change slotLoop fmt (f + 1)
      (JSDate.setMinutes { dayOf today 1 with hours := 0 } (startMinute today.minutes)) _ [] = _
    rw [setMinutes_carry { dayOf today 1 with hours := 0 } (startMinute today.minutes)
      hval.2.2 (by simp only []; omega)]
    rw [slotLoop, before_next_day today _ rfl]
    have : slotCount (24 * 60 + startMinute today.minutes) = 0 := by unfold slotCount; omega
    rw [h24, this]
    rfl
  · have e1 : today.setHours (startHour today.hours)
        = { today with hours := startHour today.hours } := setHours_lt _ _ hd2 (by omega)
    rw [e1]
    change slotLoop fmt (f + 1)
      (JSDate.setMinutes { today with hours := startHour today.hours }
        (startMinute today.minutes)) _ [] = _
    rw [setMinutes_carry { today with hours := startHour today.hours }
      (startMinute today.minutes) hd2 (by simp only []; omega)]
    have hsp := slotCount_spec (startHour today.hours * 60 + startMinute today.minutes)
    have hc : slotCount (startHour today.hours * 60 + startMinute today.minutes) < f + 1 := by
      unfold slotCount; omega
    have h := slotLoop_atClock fmt today hd2 hs hms _ (f + 1)
      (startHour today.hours * 60 + startMinute today.minutes) [] hc (by omega) hsp.1 hsp.2
    have e2 : atClock today (startHour today.hours * 60 + startMinute today.minutes)
        = { today with hours := startHour today.hours, minutes := startMinute today.minutes } := by
      unfold atClock
      congr 1 <;> omega
    rw [e2] at h
    rw [List.nil_append] at h
    rw [← h]
    congr 1
    simp only []
    congr 1 <;> omega

/-! ## The day lists in a host zone -/

theorem dayOf_valid (d : JSDate) (i : Nat) (hv : d.Valid) (hi : i ≤ 28) : (dayOf d i).Valid := by
  obtain ⟨hm, hd1, hd2, hh, hmin, hs, hms⟩ := hv
  obtain ⟨h1, h2, h3⟩ := dayAfter_valid d i hm hd1 hd2 hi
  exact ⟨h1, h2, h3, hh, hmin, hs, hms⟩

/-- A wall-clock time outside every change of the zone on its day is not moved. -/
theorem resolve_outside (z : Zone) (d : JSDate) (lo hi : Nat)
    (hz : ∀ g ∈ z, (g.year, g.month, g.date) = d.day → g.stop ≤ lo ∨ hi < g.start)
    (h1 : lo ≤ d.hours * 60 + d.minutes) (h2 : d.hours * 60 + d.minutes ≤ hi) :
    z.resolve d = d := by
  apply resolve_eq_self
  intro g hg
  simp only [Gap.skips, decide_eq_false_iff_not, not_and]
  intro e h3 h4
  have := hz g hg e.symm
  omega

theorem timeSlotsForDayIn_future (z : Zone) (fuel : Nat) (fmt : Nat → Nat → String)
    (today : JSDate) (hv : today.Valid) (i : Nat) (hi1 : 1 ≤ i) (hi6 : i ≤ 6) (hf : 33 ≤ fuel)
    (hday : (z.resolve (dayOf today i)).day = dayAfter today i)
    (hopen : ∀ g ∈ z, (g.year, g.month, g.date) = dayAfter today i →
      g.stop ≤ 300 ∨ 1260 < g.start) :
    today.setDateIn z (today.date + i) = z.resolve (dayOf today i) ∧
    timeSlotsForDayIn z fuel fmt today i
      = some (slotsFrom fmt (z.resolve (dayOf today i)) 300 32) := by
  have hcv := resolve_valid z _ (dayOf_valid today i hv (by omega))
  have hset : today.setDateIn z (today.date + i) = z.resolve (dayOf today i) := by
    unfold JSDate.setDateIn
    rw [setDate_add today i hv.2.2.1 (by omega)]
    rfl
  refine ⟨hset, ?_⟩
  generalize z.resolve (dayOf today i) = c at hcv hday hset
  obtain ⟨_, _, hcd, _, hcmin, hcs, hcms⟩ := hcv
  have hne : today.date ≠ c.date := by
    have := dayAfter_date_ne today i hi1 hi6
    rw [← hday] at this
    exact fun h => this h.symm
  have hres : ∀ d : JSDate, d.day = c.day → 300 ≤ d.hours * 60 + d.minutes →
      d.hours * 60 + d.minutes ≤ 1260 → z.resolve d = d := by
    intro d hd h1 h2
    exact resolve_outside z d 300 1260 (fun g hg e => hopen g hg (by rw [e, hd, hday])) h1 h2
  have hend : c.setHours4In z 21 0 0 0
      = { c with hours := 21, minutes := 0, seconds := 0, ms := 0 } := by
    unfold JSDate.setHours4In
    rw [setHours4_lt c 21 0 0 hcd (by omega)]
    exact hres _ rfl (by simp) (by simp)
  have h5 : c.setHoursIn z 5 = { c with hours := 5 } := by
    unfold JSDate.setHoursIn
    rw [setHours_lt c 5 hcd (by omega)]
    exact hres _ rfl (by simp) (by simp only []; omega)
  have h50 : JSDate.setMinutesIn z { c with hours := 5 } 0 = atClock c 300 := by
    unfold JSDate.setMinutesIn
    rw [setMinutes_carry { c with hours := 5 } 0 hcd (by simp)]
    exact hres _ rfl (by simp) (by simp)
  unfold timeSlotsForDayIn
  simp only []
  rw [hset, if_neg hne, hend, h5, h50]
  have h := slotLoopIn_atClock z fmt c hcd hcs hcms 32 fuel 300 [] (by omega)
    (by omega) (by omega) (fun k hk => by omega)
    (fun k _ hk => hres _ rfl (by simp only [atClock]; omega) (by simp only [atClock]; omega))
  simpa using h

/-! ## The seven-day window -/

theorem slotsFrom_length (fmt : Nat → Nat → String) (d : JSDate) (t n : Nat) :
    (slotsFrom fmt d t n).length = n := by
  simp [slotsFrom]

theorem timeSlotsForDay_eq (fuel : Nat) (fmt : Nat → Nat → String) (today : JSDate)
    (hv : today.Valid) (hf : 33 ≤ fuel) (i : Nat) (hi : i ≤ 6) :
    timeSlotsForDay fuel fmt today i = some (dayList fmt today i) := by
  unfold dayList
  by_cases h0 : i = 0
  · subst h0
    simpa using timeSlotsForDay_today fuel fmt today hv hf
  · simpa [h0] using timeSlotsForDay_future fuel fmt today hv i (by omega) hi hf

theorem dayList_ne_nil (fmt : Nat → Nat → String) (today : JSDate) (i : Nat) (hi : i ≠ 0) :
    dayList fmt today i ≠ [] := by
  intro h
  have := congrArg List.length h
  simp [dayList, hi, slotsFrom_length] at this

theorem getAvailableSlots_eq (fuel : Nat) (fmt : Nat → Nat → String) (today : JSDate)
    (hv : today.Valid) (hf : 33 ≤ fuel) :
    getAvailableSlots fuel fmt today =
      some ((if (dayList fmt today 0).length > 0 then [dayList fmt today 0] else []) ++
        [dayList fmt today 1, dayList fmt today 2, dayList fmt today 3, dayList fmt today 4,
          dayList fmt today 5, dayList fmt today 6]) := by
  have hr : List.range 7 = [0, 1, 2, 3, 4, 5, 6] := by decide
  have hl : ∀ i, i ≠ 0 → (dayList fmt today i).length > 0 := fun i hi =>
    List.length_pos.mpr (dayList_ne_nil fmt today i hi)
  unfold getAvailableSlots
  rw [hr]
  simp only [List.foldlM, timeSlotsForDay_eq fuel fmt today hv hf _ (by omega : (0:Nat) ≤ 6),
    timeSlotsForDay_eq fuel fmt today hv hf _ (by omega : (1:Nat) ≤ 6),
    timeSlotsForDay_eq fuel fmt today hv hf _ (by omega : (2:Nat) ≤ 6),
    timeSlotsForDay_eq fuel fmt today hv hf _ (by omega : (3:Nat) ≤ 6),
    timeSlotsForDay_eq fuel fmt today hv hf _ (by omega : (4:Nat) ≤ 6),
    timeSlotsForDay_eq fuel fmt today hv hf _ (by omega : (5:Nat) ≤ 6),
    timeSlotsForDay_eq fuel fmt today hv hf _ (by omega : (6:Nat) ≤ 6),
    hl 1 (by omega), hl 2 (by omega), hl 3 (by omega), hl 4 (by omega), hl 5 (by omega),
    hl 6 (by omega), if_true, Option.bind_eq_bind, Option.some_bind, Option.pure_def, bind_pure_comp,
    Option.map_some', List.nil_append, List.append_assoc, List.singleton_append, pure]

/-- A wall-clock time on a day without a change of the zone is not moved. -/
theorem resolve_quiet (z : Zone) (d : JSDate)
    (hz : ∀ g ∈ z, (g.year, g.month, g.date) ≠ d.day) : z.resolve d = d := by
  apply resolve_eq_self
  intro g hg
  simp only [Gap.skips, decide_eq_false_iff_not, not_and]
  intro e
  exact absurd e.symm (hz g hg)

theorem dayAfter_zero (d : JSDate) (hd : d.date ≤ daysInMonth d.year d.month) :
    dayAfter d 0 = d.day := by
  simp [dayAfter, hd, JSDate.day]

theorem timeSlotsForDayIn_today (z : Zone) (fuel : Nat) (fmt : Nat → Nat → String)
    (today : JSDate) (hv : today.Valid) (hf : 33 ≤ fuel)
    (h0 : ∀ g ∈ z, (g.year, g.month, g.date) ≠ dayAfter today 0)
    (h1 : ∀ g ∈ z, (g.year, g.month, g.date) ≠ dayAfter today 1) :
    timeSlotsForDayIn z fuel fmt today 0 = some (dayList fmt today 0) := by
  obtain ⟨hm, hd1, hd2, hh, hmin, hs, hms⟩ := hv
  have hsm : startMinute today.minutes < 60 := by unfold startMinute; split_ifs <;> omega
  have hsh : 5 ≤ startHour today.hours ∧ startHour today.hours ≤ 24 := by
    unfold startHour; split_ifs <;> omega
  have hq0 : ∀ d : JSDate, d.day = today.day → z.resolve d = d := by
    intro d hd
    exact resolve_quiet z d (fun g hg => by rw [hd, ← dayAfter_zero today hd2]; exact h0 g hg)
  have hq1 : ∀ d : JSDate, d.day = dayAfter today 1 → z.resolve d = d := by
    intro d hd
    exact resolve_quiet z d (fun g hg => by rw [hd]; exact h1 g hg)
  have hset : today.setDateIn z (today.date + 0) = today := by
    unfold JSDate.setDateIn
    rw [Nat.add_zero, setDate_same today hd2]
    exact hq0 _ rfl
  have hend : today.setHours4In z 21 0 0 0
      = { today with hours := 21, minutes := 0, seconds := 0, ms := 0 } := by
    unfold JSDate.setHours4In
    rw [setHours4_lt today 21 0 0 hd2 (by omega)]
    exact hq0 _ rfl
  unfold timeSlotsForDayIn
  simp only []
  rw [hset, hend]
  simp only [if_true]
  change slotLoopIn z fmt fuel
    ((today.setHoursIn z (startHour today.hours)).setMinutesIn z
      (if (today.setHoursIn z (startHour today.hours)).minutes > 30 then 30 else 0)) _ [] = _
  obtain ⟨f, rfl⟩ : ∃ f, fuel = f + 1 := ⟨fuel - 1, by omega⟩
  by_cases h24 : startHour today.hours = 24
  · have hval := dayAfter_valid today 1 hm hd1 hd2 (by omega)
    have e1 : today.setHoursIn z (startHour today.hours) = { dayOf today 1 with hours := 0 } := by
      unfold JSDate.setHoursIn
      have : today.setHours (startHour today.hours) = { dayOf today 1 with hours := 0 } := by
        unfold JSDate.setHours
        rw [h24, setDate_add today 1 hd2 (by omega)]
        rfl
      rw [this]
      exact hq1 _ rfl
    rw [e1]
    change slotLoopIn z fmt (f + 1)
      (JSDate.setMinutesIn z { dayOf today 1 with hours := 0 } (startMinute today.minutes))
      _ [] = _
    have e2 : JSDate.setMinutesIn z { dayOf today 1 with hours := 0 } (startMinute today.minutes)
        = { dayOf today 1 with hours := 0 + startMinute today.minutes / 60,
                               minutes := startMinute today.minutes % 60 } := by
      unfold JSDate.setMinutesIn
      rw [setMinutes_carry { dayOf today 1 with hours := 0 } (startMinute today.minutes)
        hval.2.2 (by simp only []; omega)]
      exact hq1 _ rfl
    rw [e2, slotLoopIn, before_next_day today _ rfl]
    have : slotCount (24 * 60 + startMinute today.minutes) = 0 := by unfold slotCount; omega
    simp only [dayList, if_true, h24, this]
    rfl
  · have e1 : today.setHoursIn z (startHour today.hours)
        = { today with hours := startHour today.hours } := by
      unfold JSDate.setHoursIn
      rw [setHours_lt _ _ hd2 (by omega)]
      exact hq0 _ rfl
    rw [e1]
    change slotLoopIn z fmt (f + 1)
      (JSDate.setMinutesIn z { today with hours := startHour today.hours }
        (startMinute today.minutes)) _ [] = _
    have e2 : JSDate.setMinutesIn z { today with hours := startHour today.hours }
        (startMinute today.minutes)
        = atClock today (startHour today.hours * 60 + startMinute today.minutes) := by
      unfold JSDate.setMinutesIn
      rw [setMinutes_carry { today with hours := startHour today.hours }
        (startMinute today.minutes) hd2 (by simp only []; omega)]
      rw [hq0]
      · unfold atClock
        congr 1 <;> (try simp only []) <;> omega
      · rfl
    rw [e2]
    have hsp := slotCount_spec (startHour today.hours * 60 + startMinute today.minutes)
    have hc : slotCount (startHour today.hours * 60 + startMinute today.minutes) < f + 1 := by
      unfold slotCount; omega
    have h := slotLoopIn_atClock z fmt today hd2 hs hms _ (f + 1)
      (startHour today.hours * 60 + startMinute today.minutes) [] hc (by omega) hsp.1 hsp.2
      (fun k _ _ => hq0 _ rfl)
    rw [h]
    simp [dayList]

/-- In a zone without a forward change on the days today to today+6 the generator gives
the window of the zone-free calendar. -/
theorem getAvailableSlotsIn_quiet (z : Zone) (fuel : Nat) (fmt : Nat → Nat → String)
    (today : JSDate) (hv : today.Valid) (hf : 33 ≤ fuel)
    (hz : ∀ g ∈ z, ∀ j, j ≤ 6 → (g.year, g.month, g.date) ≠ dayAfter today j) :
    getAvailableSlotsIn z fuel fmt today = getAvailableSlots fuel fmt today := by
  have hday : ∀ j, j ≤ 6 →
      timeSlotsForDayIn z fuel fmt today j = timeSlotsForDay fuel fmt today j := by
    intro j hj
    rw [timeSlotsForDay_eq fuel fmt today hv hf j hj]
    by_cases h0 : j = 0
    · subst h0
      exact timeSlotsForDayIn_today z fuel fmt today hv hf (fun g hg => hz g hg 0 (by omega))
        (fun g hg => hz g hg 1 (by omega))
    · have hq : z.resolve (dayOf today j) = dayOf today j :=
        resolve_quiet z _ (fun g hg => hz g hg j hj)
      have := (timeSlotsForDayIn_future z fuel fmt today hv j (by omega) hj hf
        (by rw [hq]; rfl) (fun g hg e => absurd e (hz g hg j hj))).2
      rw [this, hq]
      simp [dayList, h0]
  have hr : List.range 7 = [0, 1, 2, 3, 4, 5, 6] := by decide
  unfold getAvailableSlotsIn getAvailableSlots
  rw [hr]
  simp only [List.foldlM, hday 0 (by omega), hday 1 (by omega), hday 2 (by omega),
    hday 3 (by omega), hday 4 (by omega), hday 5 (by omega), hday 6 (by omega)]

theorem getAvailableSlotsIn_quiet_witness :
    getAvailableSlotsIn nuukMarch2026 40 toLocaleTimeString ⟨2026, 2, 10, 23, 30, 0, 0⟩ =
      getAvailableSlots 40 toLocaleTimeString ⟨2026, 2, 10, 23, 30, 0, 0⟩ :=
  getAvailableSlotsIn_quiet nuukMarch2026 40 toLocaleTimeString ⟨2026, 2, 10, 23, 30, 0, 0⟩
    (by decide) (by decide) (by decide)

/-- A non-empty day list of a completed generation is an entry of the window. -/
theorem mem_window_fold (ts : Nat → Option (List Slot)) :
    ∀ (xs : List Nat) (acc w : List (List Slot)),
      xs.foldlM (fun docSlots i => do
        let timeSlots ← ts i
        pure (if timeSlots.length > 0 then docSlots ++ [timeSlots] else docSlots)) acc = some w →
      (∀ l ∈ acc, l ∈ w) ∧ ∀ j ∈ xs, ∀ l, ts j = some l → l ≠ [] → l ∈ w := by
  intro xs
  induction xs with
  | nil =>
    intro acc w h
    simp only [List.foldlM, pure, Option.some.injEq] at h
    subst h
    exact ⟨fun l hl => hl, fun j hj => by simp at hj⟩
  | cons x xs ih =>
    intro acc w h
    simp only [List.foldlM] at h
    cases hx : ts x with
    | none => rw [hx] at h; simp at h
    | some t =>
      rw [hx] at h
      simp only [Option.bind_eq_bind, Option.some_bind, pure] at h
      obtain ⟨h1, h2⟩ := ih _ w h
      refine ⟨fun l hl => h1 l ?_, ?_⟩
      · split_ifs
        · exact List.mem_append_left _ hl
        · exact hl
      · intro j hj l hl hne
        rcases List.mem_cons.mp hj with rfl | hj'
        · rw [hx] at hl
          simp only [Option.some.injEq] at hl
          subst hl
          apply h1
          have : t.length > 0 := List.length_pos.mpr hne
          simp [this]
        · exact h2 j hj' l hl hne

theorem mem_window (z : Zone) (fuel : Nat) (fmt : Nat → Nat → String) (today : JSDate)
    (w : List (List Slot)) (h : getAvailableSlotsIn z fuel fmt today = some w)
    (j : Nat) (hj : j < 7) (l : List Slot) (hl : timeSlotsForDayIn z fuel fmt today j = some l)
    (hne : l ≠ []) : l ∈ w :=
  (mem_window_fold (timeSlotsForDayIn z fuel fmt today) (List.range 7) [] w h).2 j
    (List.mem_range.mpr hj) l hl hne

/-! ## Claims about slot generation -/

theorem slotsFrom_clock (fmt : Nat → Nat → String) (d : JSDate) (t n : Nat) :
    (slotsFrom fmt d t n).map Slot.minuteOfDay = (List.range n).map (fun k => t + 30 * k) := by
  unfold slotsFrom
  rw [List.map_map]
  apply List.map_congr_left
  intro k _
  simp only [Function.comp, Slot.minuteOfDay, mkSlot, atClock]
  omega

theorem mem_slotsFrom (fmt : Nat → Nat → String) (d : JSDate) (t n : Nat) (s : Slot)
    (hs : s ∈ slotsFrom fmt d t n) :
    ∃ k, k < n ∧ s = mkSlot fmt (atClock d (t + 30 * k)) := by
  unfold slotsFrom at hs
  obtain ⟨k, hk, rfl⟩ := List.mem_map.mp hs
  exact ⟨k, List.mem_range.mp hk, rfl⟩

/-- Without offset changes, the list of offset `i` in 1..6 is the entry of the window at
distance `7 - i` from its end. -/
theorem window_index_future (fuel : Nat) (fmt : Nat → Nat → String) (today : JSDate) (i : Nat)
    (hv : today.Valid) (hi1 : 1 ≤ i) (hi6 : i ≤ 6) (hf : 33 ≤ fuel) :
    ∃ w, getAvailableSlots fuel fmt today = some w ∧
      w[i + w.length - 7]? = some (dayList fmt today i) := by
  refine ⟨_, getAvailableSlots_eq fuel fmt today hv hf, ?_⟩
  by_cases h0 : (dayList fmt today 0).length > 0
  · simp only [h0, if_true]
    interval_cases i <;> rfl
  · simp only [h0, if_false]
    interval_cases i <;> rfl

/-- C1 (counterexample): in America/Nuuk on Tuesday 24 March 2026 at 23:30 the day of
offset 4 is Saturday 28 March, whose wall-clock time 23:30 does not exist; the 32 slots
generated for offset 4 are all dated 29 March, and the window has two entries for
29 March and none for 28 March. -/
theorem nuuk_offset_lands_on_next_day :
    JSDate.Valid ⟨2026, 2, 24, 23, 30, 0, 0⟩ ∧
    dayAfter ⟨2026, 2, 24, 23, 30, 0, 0⟩ 4 = (2026, 2, 28) ∧
    (timeSlotsForDayIn nuukMarch2026 40 toLocaleTimeString ⟨2026, 2, 24, 23, 30, 0, 0⟩ 4).map
      (fun l => l.map Slot.day) = some (List.replicate 32 (2026, 2, 29)) ∧
    (getAvailableSlotsIn nuukMarch2026 40 toLocaleTimeString ⟨2026, 2, 24, 23, 30, 0, 0⟩).map
      (fun w => w.map (fun l => l.head?.map Slot.day)) =
      some [some (2026, 2, 25), some (2026, 2, 26), some (2026, 2, 27), some (2026, 2, 29),
        some (2026, 2, 29), some (2026, 2, 30)] := by
  refine ⟨by decide, by decide, ?_, ?_⟩
  · set_option maxRecDepth 100000 in decide
  · set_option maxRecDepth 100000 in decide

/-- C1 (amended): for every host zone, every valid `now` and every offset `i` in 1..6 such
that the date object of offset `i` is on calendar day `today + i` (no forward offset
change moves now's time of day on that day to another day) and no forward change skips a
wall-clock time from 05:00 to 21:00 of that day, the generator produces for offset `i`
exactly the 32 slots 05:00, 05:30, ..., 20:30 in that order, all on day `today + i`; the
start rule of today is not applied; the list is an entry of the window, and in a zone
without a forward change on the days today to today+6 it is the entry at distance `7 - i`
from the end of the window. -/
theorem future_day_slots_in_zone (z : Zone) (fuel : Nat) (fmt : Nat → Nat → String)
    (today : JSDate) (i : Nat) (hv : today.Valid) (hi1 : 1 ≤ i) (hi6 : i ≤ 6) (hf : 33 ≤ fuel)
    (hday : (today.setDateIn z (today.date + i)).day = dayAfter today i)
    (hopen : ∀ g ∈ z, (g.year, g.month, g.date) = dayAfter today i →
      g.stop ≤ 300 ∨ 1260 < g.start) :
    (today.setDateIn z (today.date + i)).date ≠ today.date ∧
    ∃ l, timeSlotsForDayIn z fuel fmt today i = some l ∧
      (∀ w, getAvailableSlotsIn z fuel fmt today = some w → l ∈ w) ∧
      ((∀ g ∈ z, ∀ j, j ≤ 6 → (g.year, g.month, g.date) ≠ dayAfter today j) →
        ∃ w, getAvailableSlotsIn z fuel fmt today = some w ∧
          w[i + w.length - 7]? = some l) ∧
      l.map Slot.clock = (List.range 32).map (fun k => (5 + k / 2, 30 * (k % 2))) ∧
      ∀ s ∈ l, s.day = dayAfter today i ∧
        s.time = fmt s.datetime.hours s.datetime.minutes ∧
        300 ≤ s.minuteOfDay ∧ s.minuteOfDay < 1260 ∧
        (s.datetime.minutes = 0 ∨ s.datetime.minutes = 30) := by
  have hset : today.setDateIn z (today.date + i) = z.resolve (dayOf today i) := by
    unfold JSDate.setDateIn
    rw [setDate_add today i hv.2.2.1 (by omega)]
    rfl
  rw [hset] at hday ⊢
  obtain ⟨_, hl⟩ := timeSlotsForDayIn_future z fuel fmt today hv i hi1 hi6 hf hday hopen
  have hne : slotsFrom fmt (z.resolve (dayOf today i)) 300 32 ≠ [] := by
    intro h
    have := congrArg List.length h
    simp [slotsFrom_length] at this
  refine ⟨?_, _, hl, ?_, ?_, ?_, ?_⟩
  · have := dayAfter_date_ne today i hi1 hi6
    rw [← hday] at this
    exact this
  · intro w hw
    exact mem_window z fuel fmt today w hw i (by omega) _ hl hne
  · intro hz
    obtain ⟨w, hw, hidx⟩ := window_index_future fuel fmt today i hv hi1 hi6 hf
    refine ⟨w, by rw [getAvailableSlotsIn_quiet z fuel fmt today hv hf hz, hw], ?_⟩
    rw [hidx, resolve_quiet z (dayOf today i) (fun g hg => hz g hg i hi6)]
    simp [dayList, show i ≠ 0 by omega]
  · simp only [slotsFrom, List.map_map]
    apply List.map_congr_left
    intro k _
    simp only [Function.comp, Slot.clock, mkSlot, atClock, Prod.mk.injEq]
    omega
  · intro s hs
    obtain ⟨k, hk, rfl⟩ := mem_slotsFrom _ _ _ _ _ hs
    refine ⟨hday, ?_⟩
    simp only [Slot.minuteOfDay, mkSlot, atClock, true_and]
    omega

theorem future_day_slots_in_zone_witness :
    (JSDate.setDateIn nuukMarch2026 ⟨2026, 2, 24, 22, 30, 5, 0⟩ (24 + 4)).date ≠ 24 ∧
    ∃ l, timeSlotsForDayIn nuukMarch2026 40 toLocaleTimeString ⟨2026, 2, 24, 22, 30, 5, 0⟩ 4
        = some l ∧
      (∀ w, getAvailableSlotsIn nuukMarch2026 40 toLocaleTimeString
        ⟨2026, 2, 24, 22, 30, 5, 0⟩ = some w → l ∈ w) ∧
      l.map Slot.clock = (List.range 32).map (fun k => (5 + k / 2, 30 * (k % 2))) ∧
      ∀ s ∈ l, s.day = (2026, 2, 28) := by
  obtain ⟨h1, l, h2, h3, _, h5, h6⟩ := future_day_slots_in_zone nuukMarch2026 40
    toLocaleTimeString ⟨2026, 2, 24, 22, 30, 5, 0⟩ 4 (by decide) (by decide) (by decide)
    (by decide) (by decide) (by decide)
  exact ⟨h1, l, h2, h3, h5, fun s hs => (h6 s hs).1⟩

/-- C2: for every valid `now` with hour `h` and minute `m`, the list generated for today is
the ascending sequence of the times `startHour h : startMinute m + 30 k` minutes that lie
strictly before 21:00, all on today's date; it is the first entry of the window when it is
not empty; its first slot is at `startHour h : startMinute m`, so its minute is 0 or 30
and its hour is at least `startHour h` and at least 5; at 04:10 the first slot is 05:00. -/
theorem today_slots (fuel : Nat) (fmt : Nat → Nat → String) (today : JSDate)
    (hv : today.Valid) (hf : 33 ≤ fuel) :
    ∃ w l n, getAvailableSlots fuel fmt today = some w ∧
      timeSlotsForDay fuel fmt today 0 = some l ∧
      (l ≠ [] → w.head? = some l) ∧
      l.map Slot.clock = (List.range n).map (fun k =>
        ((startHour today.hours * 60 + startMinute today.minutes + 30 * k) / 60,
         (startHour today.hours * 60 + startMinute today.minutes + 30 * k) % 60)) ∧
      (∀ k, k < n ↔ startHour today.hours * 60 + startMinute today.minutes + 30 * k < 1260) ∧
      (∀ s ∈ l, s.day = (today.year, today.month, today.date) ∧
        s.time = fmt s.datetime.hours s.datetime.minutes) ∧
      (∀ s, l.head? = some s →
        s.clock = (startHour today.hours, startMinute today.minutes) ∧
        (s.datetime.minutes = 0 ∨ s.datetime.minutes = 30) ∧
        startHour today.hours ≤ s.datetime.hours ∧ 5 ≤ s.datetime.hours) ∧
      (today.hours = 4 → today.minutes = 10 → l.head?.map Slot.clock = some (5, 0)) := by
  have hsm : startMinute today.minutes = 0 ∨ startMinute today.minutes = 30 := by
    unfold startMinute; split_ifs <;> simp
  have hsh : 5 ≤ startHour today.hours := by unfold startHour; split_ifs <;> omega
  have hl : dayList fmt today 0 = slotsFrom fmt today
      (startHour today.hours * 60 + startMinute today.minutes)
      (slotCount (startHour today.hours * 60 + startMinute today.minutes)) := by
    simp [dayList]
  have hhead : ∀ s, (dayList fmt today 0).head? = some s →
      s = mkSlot fmt (atClock today (startHour today.hours * 60 + startMinute today.minutes)) := by
    intro s h
    rw [hl] at h
    cases hn : slotCount (startHour today.hours * 60 + startMinute today.minutes) with
    | zero => rw [hn] at h; simp [slotsFrom] at h
    | succ n =>
      rw [hn, slotsFrom_succ] at h
      simpa using h.symm
  refine ⟨_, dayList fmt today 0,
    slotCount (startHour today.hours * 60 + startMinute today.minutes),
    getAvailableSlots_eq fuel fmt today hv hf,
    timeSlotsForDay_eq fuel fmt today hv hf 0 (by omega), ?_, ?_, ?_, ?_, ?_, ?_⟩
  · intro hne
    have : (dayList fmt today 0).length > 0 := List.length_pos.mpr hne
    simp [this]
  · simp only [hl, slotsFrom, List.map_map]
    apply List.map_congr_left
    intro k _
    simp [Function.comp, Slot.clock, mkSlot, atClock]
  · intro k
    unfold slotCount
    omega
  · intro s hs
    rw [hl] at hs
    obtain ⟨k, _, rfl⟩ := mem_slotsFrom _ _ _ _ _ hs
    simp [Slot.day, mkSlot, atClock]
  · intro s h
    rw [hhead s h]
    simp only [Slot.clock, mkSlot, atClock, Prod.mk.injEq]
    omega
  · intro h4 h10
    cases hh : (dayList fmt today 0).head? with
    | none =>
      rw [hl, h4, h10] at hh
      simp [startHour, startMinute, slotCount, slotsFrom] at hh
    | some s =>
      rw [hhead s hh, h4, h10]
      simp [startHour, startMinute, Slot.clock, mkSlot, atClock]

theorem today_slots_witness :
    ∃ w l n, getAvailableSlots 40 toLocaleTimeString ⟨2024, 1, 29, 4, 10, 59, 999⟩ = some w ∧
      timeSlotsForDay 40 toLocaleTimeString ⟨2024, 1, 29, 4, 10, 59, 999⟩ 0 = some l ∧
      (l ≠ [] → w.head? = some l) ∧
      l.map Slot.clock = (List.range n).map (fun k =>
        ((startHour 4 * 60 + startMinute 10 + 30 * k) / 60,
         (startHour 4 * 60 + startMinute 10 + 30 * k) % 60)) ∧
      (∀ k, k < n ↔ startHour 4 * 60 + startMinute 10 + 30 * k < 1260) ∧
      (∀ s ∈ l, s.day = (2024, 1, 29) ∧
        s.time = toLocaleTimeString s.datetime.hours s.datetime.minutes) ∧
      (∀ s, l.head? = some s →
        s.clock = (startHour 4, startMinute 10) ∧
        (s.datetime.minutes = 0 ∨ s.datetime.minutes = 30) ∧
        startHour 4 ≤ s.datetime.hours ∧ 5 ≤ s.datetime.hours) ∧
      ((4 : Nat) = 4 → (10 : Nat) = 10 → l.head?.map Slot.clock = some (5, 0)) :=
  today_slots 40 toLocaleTimeString ⟨2024, 1, 29, 4, 10, 59, 999⟩ (by decide) (by decide)

/-- C3: for every valid `now` the window is the sequence of the day lists of offsets 0..6
in ascending order with the empty lists removed; every entry is non-empty; the lists of
offsets 1..6 are never empty; today's list is empty exactly when its start hour is at
least 21, that is when the current hour is at least 20; then the window has 6 entries
and starts with tomorrow's list, otherwise it has 7 entries. -/
theorem window_structure (fuel : Nat) (fmt : Nat → Nat → String) (today : JSDate)
    (hv : today.Valid) (hf : 33 ≤ fuel) :
    ∃ (L : Nat → List Slot) (w : List (List Slot)),
      (∀ i, i < 7 → timeSlotsForDay fuel fmt today i = some (L i)) ∧
      getAvailableSlots fuel fmt today = some w ∧
      w = ((List.range 7).map L).filter (fun l => decide (l ≠ [])) ∧
      (∀ l ∈ w, l ≠ []) ∧
      (∀ i, 1 ≤ i → i ≤ 6 → L i ≠ [] ∧ L i ∈ w) ∧
      (L 0 = [] ↔ 21 ≤ startHour today.hours) ∧
      (21 ≤ startHour today.hours ↔ 20 ≤ today.hours) ∧
      (L 0 = [] → w.length = 6 ∧ w.head? = some (L 1)) ∧
      (L 0 ≠ [] → w.length = 7 ∧ w.head? = some (L 0)) := by
  have hr : List.range 7 = [0, 1, 2, 3, 4, 5, 6] := by decide
  have hne : ∀ i, i ≠ 0 → dayList fmt today i ≠ [] := dayList_ne_nil fmt today
  have hsm : startMinute today.minutes = 0 ∨ startMinute today.minutes = 30 := by
    unfold startMinute; split_ifs <;> simp
  have h0 : dayList fmt today 0 = [] ↔ 21 ≤ startHour today.hours := by
    rw [← List.length_eq_zero]
    simp only [dayList, if_true, slotsFrom_length, slotCount]
    omega
  have hw : ((if (dayList fmt today 0).length > 0 then [dayList fmt today 0] else []) ++
        [dayList fmt today 1, dayList fmt today 2, dayList fmt today 3, dayList fmt today 4,
          dayList fmt today 5, dayList fmt today 6])
      = ((List.range 7).map (dayList fmt today)).filter (fun l => decide (l ≠ [])) := by
    rw [hr]
    simp only [List.map_cons, List.map_nil, List.filter_cons, hne 1 (by omega),
      hne 2 (by omega), hne 3 (by omega), hne 4 (by omega), hne 5 (by omega),
      hne 6 (by omega), ne_eq, not_false_eq_true, decide_True, if_true, List.filter_nil]
    by_cases h : dayList fmt today 0 = []
    · simp [h]
    · have : (dayList fmt today 0).length > 0 := List.length_pos.mpr h
      simp [h, this]
  refine ⟨dayList fmt today, _, fun i hi => timeSlotsForDay_eq fuel fmt today hv hf i (by omega),
    getAvailableSlots_eq fuel fmt today hv hf, hw, ?_, ?_, h0, ?_, ?_, ?_⟩
  · intro l hl
    rw [hw] at hl
    simpa using (List.mem_filter.mp hl).2
  · intro i hi1 hi6
    refine ⟨hne i (by omega), ?_⟩
    rw [hw]
    refine List.mem_filter.mpr ⟨List.mem_map.mpr ⟨i, List.mem_range.mpr (by omega), rfl⟩, ?_⟩
    simpa using hne i (by omega)
  · unfold startHour; split_ifs <;> omega
  · intro h
    simp [h]
  · intro h
    have : (dayList fmt today 0).length > 0 := List.length_pos.mpr h
    simp [this]

theorem window_structure_witness :
    ∃ (L : Nat → List Slot) (w : List (List Slot)),
      timeSlotsForDay 40 toLocaleTimeString ⟨2025, 1, 28, 20, 45, 0, 0⟩ 0 = some (L 0) ∧
      timeSlotsForDay 40 toLocaleTimeString ⟨2025, 1, 28, 20, 45, 0, 0⟩ 1 = some (L 1) ∧
      getAvailableSlots 40 toLocaleTimeString ⟨2025, 1, 28, 20, 45, 0, 0⟩ = some w ∧
      L 0 = [] ∧ w.length = 6 ∧ w.head? = some (L 1) := by
  obtain ⟨L, w, h1, h2, _, _, _, h6, _, h8, _⟩ :=
    window_structure 40 toLocaleTimeString ⟨2025, 1, 28, 20, 45, 0, 0⟩ (by decide) (by decide)
  have h0 : L 0 = [] := h6.mpr (by decide)
  exact ⟨L, w, h1 0 (by decide), h1 1 (by decide), h2, h0, (h8 h0).1, (h8 h0).2⟩

/-- C4 (evaluation at the failing input): at 05:45 the first slot generated for today is
05:30, which is before the current time. -/
theorem today_first_slot_before_now :
    (timeSlotsForDay 40 toLocaleTimeString ⟨2025, 5, 10, 5, 45, 0, 0⟩ 0).map
      (fun l => l.head?.map
        (fun s => (s.clock, s.datetime.before ⟨2025, 5, 10, 5, 45, 0, 0⟩)))
      = some (some ((5, 30), true)) := by
  decide

/-! ## Decimal rendering and the date identifier -/

theorem digitChar_value (k : Nat) (hk : k < 10) : (Nat.digitChar k).toNat - 48 = k := by
  interval_cases k <;> rfl

theorem digitChar_ne_sep (k : Nat) (hk : k < 10) : Nat.digitChar k ≠ '_' := by
  interval_cases k <;> decide

theorem toDigitsCore_value (fuel : Nat) : ∀ (n : Nat) (ds : List Char), n < fuel →
    digitsValue 0 (Nat.toDigitsCore 10 fuel n ds) = digitsValue n ds := by
  induction fuel with
  | zero => intro n ds h; omega
  | succ f ih =>
    intro n ds h
    have hd := digitChar_value (n % 10) (Nat.mod_lt _ (by omega))
    simp only [Nat.toDigitsCore]
    by_cases h0 : n / 10 = 0
    · simp only [h0, if_true, digitsValue, List.foldl_cons, hd]
      congr 1
      omega
    · simp only [h0, if_false]
      rw [ih (n / 10) _ (by omega)]
      simp only [digitsValue, List.foldl_cons, hd]
      congr 1
      omega

theorem toDigitsCore_no_sep (fuel : Nat) : ∀ (n : Nat) (ds : List Char),
    '_' ∉ ds → '_' ∉ Nat.toDigitsCore 10 fuel n ds := by
  induction fuel with
  | zero => intro n ds h; simpa [Nat.toDigitsCore] using h
  | succ f ih =>
    intro n ds h
    have hd := digitChar_ne_sep (n % 10) (Nat.mod_lt _ (by omega))
    have h2 : '_' ∉ Nat.digitChar (n % 10) :: ds := by
      simp only [List.mem_cons, not_or]
      exact ⟨fun e => hd e.symm, h⟩
    simp only [Nat.toDigitsCore]
    split_ifs
    · exact h2
    · exact ih _ _ h2

theorem toString_data (n : Nat) : (toString n).data = Nat.toDigits 10 n := rfl

theorem toString_no_sep (n : Nat) : '_' ∉ (toString n).data := by
  rw [toString_data]
  exact toDigitsCore_no_sep _ _ _ (by simp)

theorem toString_nat_injective (a b : Nat) (h : toString a = toString b) : a = b := by
  have h1 : Nat.toDigits 10 a = Nat.toDigits 10 b := by
    rw [← toString_data, ← toString_data, h]
  have ha := toDigitsCore_value (a + 1) a [] (by omega)
  have hb := toDigitsCore_value (b + 1) b [] (by omega)
  unfold Nat.toDigits at h1
  rw [h1, hb] at ha
  simpa [digitsValue] using ha.symm

theorem split_at_sep : ∀ (x x' r r' : List Char), '_' ∉ x → '_' ∉ x' →
    x ++ '_' :: r = x' ++ '_' :: r' → x = x' ∧ r = r' := by
  intro x
  induction x with
  | nil =>
    intro x' r r' _ hx' h
    cases x' with
    | nil => simpa using h
    | cons c cs =>
      simp only [List.nil_append, List.cons_append, List.cons.injEq] at h
      exact absurd (h.1 ▸ List.mem_cons_self _ _) hx'
  | cons a as ih =>
    intro x' r r' hx hx' h
    cases x' with
    | nil =>
      simp only [List.nil_append, List.cons_append, List.cons.injEq] at h
      exact absurd (h.1 ▸ List.mem_cons_self _ _) hx
    | cons c cs =>
      simp only [List.cons_append, List.cons.injEq] at h
      obtain ⟨h1, h2⟩ := ih cs r r' (fun m => hx (List.mem_cons_of_mem _ m))
        (fun m => hx' (List.mem_cons_of_mem _ m)) h.2
      exact ⟨by rw [h.1, h1], h2⟩

theorem slotDateOf_data (d : JSDate) (rest : List Char) :
    (slotDateOf d).data ++ rest =
      (toString d.date).data ++ '_' :: ((toString (d.month + 1)).data ++
        '_' :: ((toString d.year).data ++ rest)) := by
  simp [slotDateOf, String.data_append]

/-- A key determines its calendar day and its time label. -/
theorem key_injective (a b : JSDate) (l1 l2 : String)
    (h : slotDateOf a ++ "_" ++ l1 = slotDateOf b ++ "_" ++ l2) :
    (a.date = b.date ∧ a.month = b.month ∧ a.year = b.year) ∧ l1 = l2 := by
  have h1 := congrArg String.data h
  simp only [String.data_append, List.append_assoc] at h1
  rw [slotDateOf_data a, slotDateOf_data b] at h1
  obtain ⟨e1, h2⟩ := split_at_sep _ _ _ _ (toString_no_sep _) (toString_no_sep _) h1
  obtain ⟨e2, h3⟩ := split_at_sep _ _ _ _ (toString_no_sep _) (toString_no_sep _) h2
  have h4 : (toString a.year).data ++ '_' :: l1.data = (toString b.year).data ++ '_' :: l2.data := by
    simpa using h3
  obtain ⟨e3, h5⟩ := split_at_sep _ _ _ _ (toString_no_sep _) (toString_no_sep _) h4
  refine ⟨⟨toString_nat_injective _ _ (String.ext e1), ?_,
    toString_nat_injective _ _ (String.ext e3)⟩, String.ext h5⟩
  have := toString_nat_injective _ _ (String.ext e2)
  omega

theorem slotDateOf_injective (a b : JSDate) (h : slotDateOf a = slotDateOf b) :
    a.date = b.date ∧ a.month = b.month ∧ a.year = b.year :=
  (key_injective a b "" "" (by rw [h])).1

theorem dayAfter_injective (d : JSDate) (i j : Nat)
    (h : dayAfter d i = dayAfter d j) : i = j := by
  have h0 := daysInMonth_ge d.year d.month
  unfold dayAfter nextMonth at h
  split_ifs at h <;> simp only [Prod.mk.injEq] at h <;> omega

theorem slotDateOf_atClock (d : JSDate) (t : Nat) : slotDateOf (atClock d t) = slotDateOf d := rfl

theorem dayList_day (fmt : Nat → Nat → String) (today : JSDate)
    (hd : today.date ≤ daysInMonth today.year today.month) (i : Nat) (s : Slot)
    (hs : s ∈ dayList fmt today i) : s.day = dayAfter today i := by
  unfold dayList at hs
  by_cases h0 : i = 0
  · subst h0
    simp only [if_true] at hs
    obtain ⟨k, _, rfl⟩ := mem_slotsFrom _ _ _ _ _ hs
    simp [Slot.day, mkSlot, atClock, dayAfter, hd]
  · simp only [h0, if_false] at hs
    obtain ⟨k, _, rfl⟩ := mem_slotsFrom _ _ _ _ _ hs
    simp [Slot.day, mkSlot, atClock, dayOf]

theorem window_sublist (fmt : Nat → Nat → String) (today : JSDate) :
    List.Sublist
      ((if (dayList fmt today 0).length > 0 then [dayList fmt today 0] else []) ++
        [dayList fmt today 1, dayList fmt today 2, dayList fmt today 3, dayList fmt today 4,
          dayList fmt today 5, dayList fmt today 6])
      ((List.range 7).map (dayList fmt today)) := by
  have hr : List.range 7 = [0, 1, 2, 3, 4, 5, 6] := by decide
  rw [hr]
  split_ifs
  · exact List.Sublist.refl _
  · exact List.sublist_cons_self _ _

/-- Without offset changes, slots of two different entries of the window have different
identifiers and share no key. -/
theorem window_identifiers_distinct (fuel : Nat) (fmt : Nat → Nat → String) (today : JSDate)
    (hv : today.Valid) (hf : 33 ≤ fuel) :
    ∃ w, getAvailableSlots fuel fmt today = some w ∧
      w.Pairwise (fun d1 d2 => ∀ a ∈ d1, ∀ b ∈ d2,
        slotDateOf a.datetime ≠ slotDateOf b.datetime ∧
        ∀ l1 l2 : String,
          slotDateOf a.datetime ++ "_" ++ l1 ≠ slotDateOf b.datetime ++ "_" ++ l2) := by
  refine ⟨_, getAvailableSlots_eq fuel fmt today hv hf, ?_⟩
  apply List.Pairwise.sublist (window_sublist fmt today)
  rw [List.pairwise_map]
  apply List.Pairwise.imp_of_mem _ (List.pairwise_lt_range 7)
  intro i j _ _ hlt a ha b hb
  have hda := dayList_day fmt today hv.2.2.1 i a ha
  have hdb := dayList_day fmt today hv.2.2.1 j b hb
  have hne : slotDateOf a.datetime ≠ slotDateOf b.datetime := by
    intro h
    obtain ⟨e1, e2, e3⟩ := slotDateOf_injective _ _ h
    have : dayAfter today i = dayAfter today j := by
      rw [← hda, ← hdb]
      simp [Slot.day, e1, e2, e3]
    have := dayAfter_injective today i j this
    omega
  refine ⟨hne, fun l1 l2 h => hne ?_⟩
  obtain ⟨⟨e1, e2, e3⟩, _⟩ := key_injective _ _ _ _ h
  simp [slotDateOf, e1, e2, e3]

/-- C10 (counterexample): in America/Nuuk on Tuesday 24 March 2026 at 23:30 the entries of
the window for offsets 4 and 5 both carry the identifier 29_3_2026. -/
theorem nuuk_window_repeats_identifier :
    (getAvailableSlotsIn nuukMarch2026 40 toLocaleTimeString ⟨2026, 2, 24, 23, 30, 0, 0⟩).map
      (fun w => w.map (fun l => l.head?.map (fun s => slotDateOf s.datetime))) =
      some [some "25_3_2026", some "26_3_2026", some "27_3_2026", some "29_3_2026",
        some "29_3_2026", some "30_3_2026"] ∧
    ¬ List.Nodup ["25_3_2026", "26_3_2026", "27_3_2026", "29_3_2026", "29_3_2026",
      "30_3_2026"] := by
  refine ⟨?_, by decide⟩
  set_option maxRecDepth 100000 in decide

/-- C10 (amended): the date identifier determines day, month and year, so two dates that
differ in one of them get different identifiers, and a key `identifier_label` determines
both its date and its label, in every host zone. For two different offsets in 1..6 that
the zone keeps on their days, the generated lists have different identifiers and share
no key; and in a zone without a forward offset change on the days today to today+6, slots
of two different entries of the window have different identifiers and share no key. -/
theorem date_identifier_injective_in_zone (z : Zone) (fuel : Nat) (fmt : Nat → Nat → String)
    (today : JSDate) (hv : today.Valid) (hf : 33 ≤ fuel) :
    (∀ a b : JSDate, slotDateOf a = slotDateOf b ↔
      (a.date = b.date ∧ a.month = b.month ∧ a.year = b.year)) ∧
    (∀ (a b : JSDate) (l1 l2 : String),
      slotDateOf a ++ "_" ++ l1 = slotDateOf b ++ "_" ++ l2 →
        (a.date = b.date ∧ a.month = b.month ∧ a.year = b.year) ∧ l1 = l2) ∧
    (∀ j k, 1 ≤ j → j ≤ 6 → 1 ≤ k → k ≤ 6 → j ≠ k →
      OffsetKept z today j → OffsetKept z today k →
      ∃ lj lk, timeSlotsForDayIn z fuel fmt today j = some lj ∧
        timeSlotsForDayIn z fuel fmt today k = some lk ∧ lj ≠ [] ∧ lk ≠ [] ∧
        ∀ a ∈ lj, ∀ b ∈ lk, slotDateOf a.datetime ≠ slotDateOf b.datetime ∧
          ∀ l1 l2 : String,
            slotDateOf a.datetime ++ "_" ++ l1 ≠ slotDateOf b.datetime ++ "_" ++ l2) ∧
    ((∀ g ∈ z, ∀ j, j ≤ 6 → (g.year, g.month, g.date) ≠ dayAfter today j) →
      ∃ w, getAvailableSlotsIn z fuel fmt today = some w ∧
        w.Pairwise (fun d1 d2 => ∀ a ∈ d1, ∀ b ∈ d2,
          slotDateOf a.datetime ≠ slotDateOf b.datetime ∧
          ∀ l1 l2 : String,
            slotDateOf a.datetime ++ "_" ++ l1 ≠ slotDateOf b.datetime ++ "_" ++ l2)) := by
  have hkept : ∀ j, 1 ≤ j → j ≤ 6 → OffsetKept z today j →
      ∃ l, timeSlotsForDayIn z fuel fmt today j = some l ∧ l ≠ [] ∧
        ∀ s ∈ l, s.day = dayAfter today j := by
    intro j hj1 hj6 hk
    have hset : today.setDateIn z (today.date + j) = z.resolve (dayOf today j) := by
      unfold JSDate.setDateIn
      rw [setDate_add today j hv.2.2.1 (by omega)]
      rfl
    have hday := hk.1
    rw [hset] at hday
    refine ⟨_, (timeSlotsForDayIn_future z fuel fmt today hv j hj1 hj6 hf hday hk.2).2, ?_, ?_⟩
    · intro h
      have := congrArg List.length h
      simp [slotsFrom_length] at this
    · intro s hs
      obtain ⟨n, _, rfl⟩ := mem_slotsFrom _ _ _ _ _ hs
      exact hday
  refine ⟨fun a b => ⟨slotDateOf_injective a b, ?_⟩, key_injective, ?_, ?_⟩
  · rintro ⟨h1, h2, h3⟩
    simp [slotDateOf, h1, h2, h3]
  · intro j k hj1 hj6 hk1 hk6 hjk hkj hkk
    obtain ⟨lj, hlj, hnj, hdj⟩ := hkept j hj1 hj6 hkj
    obtain ⟨lk, hlk, hnk, hdk⟩ := hkept k hk1 hk6 hkk
    refine ⟨lj, lk, hlj, hlk, hnj, hnk, ?_⟩
    intro a ha b hb
    have hne : slotDateOf a.datetime ≠ slotDateOf b.datetime := by
      intro h
      obtain ⟨e1, e2, e3⟩ := slotDateOf_injective _ _ h
      have : dayAfter today j = dayAfter today k := by
        rw [← hdj a ha, ← hdk b hb]
        simp [Slot.day, e1, e2, e3]
      exact hjk (dayAfter_injective today j k this)
    refine ⟨hne, fun l1 l2 h => hne ?_⟩
    obtain ⟨⟨e1, e2, e3⟩, _⟩ := key_injective _ _ _ _ h
    simp [slotDateOf, e1, e2, e3]
  · intro hz
    rw [getAvailableSlotsIn_quiet z fuel fmt today hv hf hz]
    exact window_identifiers_distinct fuel fmt today hv hf

theorem date_identifier_injective_in_zone_witness :
    slotDateOf ⟨2026, 2, 24, 22, 30, 5, 0⟩ = "24_3_2026" ∧
    ∃ l4 l5, timeSlotsForDayIn nuukMarch2026 40 toLocaleTimeString
        ⟨2026, 2, 24, 22, 30, 5, 0⟩ 4 = some l4 ∧
      timeSlotsForDayIn nuukMarch2026 40 toLocaleTimeString
        ⟨2026, 2, 24, 22, 30, 5, 0⟩ 5 = some l5 ∧ l4 ≠ [] ∧ l5 ≠ [] ∧
      ∀ a ∈ l4, ∀ b ∈ l5, slotDateOf a.datetime ≠ slotDateOf b.datetime ∧
        ∀ l1 l2 : String,
          slotDateOf a.datetime ++ "_" ++ l1 ≠ slotDateOf b.datetime ++ "_" ++ l2 :=
  ⟨by decide,
    (date_identifier_injective_in_zone nuukMarch2026 40 toLocaleTimeString
      ⟨2026, 2, 24, 22, 30, 5, 0⟩ (by decide) (by decide)).2.2.1 4 5 (by decide) (by decide)
      (by decide) (by decide) (by decide)
      ⟨by decide, by decide⟩ ⟨by decide, by decide⟩⟩

/-! ## The availability map -/

theorem buildAvailability_append (l : List (String × Bool)) (r : String × Bool) :
    buildAvailability (l ++ [r]) = (buildAvailability l).set r.1 r.2 := by
  simp [buildAvailability, List.foldl_append]

/-- A key is present in the built object exactly when a result carries it. -/
theorem buildAvailability_ne_none (l : List (String × Bool)) (key : String) :
    buildAvailability l key ≠ none ↔ ∃ r ∈ l, r.1 = key := by
  induction l using List.reverseRecOn with
  | nil => simp [buildAvailability, AvailabilityMap.empty]
  | append_singleton l r ih =>
    rw [buildAvailability_append]
    unfold AvailabilityMap.set
    by_cases h : key = r.1
    · simp only [h, if_true, ne_eq, not_false_eq_true, true_iff, reduceCtorEq]
      exact ⟨r, by simp, rfl⟩
    · simp only [h, if_false, ih, List.mem_append, List.mem_singleton]
      constructor
      · rintro ⟨x, hx, e⟩; exact ⟨x, Or.inl hx, e⟩
      · rintro ⟨x, hx | hx, e⟩
        · exact ⟨x, hx, e⟩
        · subst hx; exact absurd e.symm h

/-- When results with the same key carry the same value, every result is found under its
key. -/
theorem buildAvailability_of_mem (l : List (String × Bool))
    (hfun : ∀ r ∈ l, ∀ r' ∈ l, r.1 = r'.1 → r.2 = r'.2) (r : String × Bool) (hr : r ∈ l) :
    buildAvailability l r.1 = some r.2 := by
  induction l using List.reverseRecOn with
  | nil => simp at hr
  | append_singleton l x ih =>
    rw [buildAvailability_append]
    unfold AvailabilityMap.set
    by_cases h : r.1 = x.1
    · simp only [h, if_true]
      rw [hfun r hr x (by simp) h]
    · simp only [h, if_false]
      rcases List.mem_append.mp hr with hr' | hr'
      · exact ih (fun a ha b hb => hfun a (List.mem_append_left _ ha) b
          (List.mem_append_left _ hb)) hr'
      · simp only [List.mem_singleton] at hr'
        subst hr'
        exact absurd rfl h

theorem buildAvailability_some (l : List (String × Bool)) (key : String) (b : Bool)
    (h : buildAvailability l key = some b) : (key, b) ∈ l := by
  induction l using List.reverseRecOn with
  | nil => simp [buildAvailability, AvailabilityMap.empty] at h
  | append_singleton l x ih =>
    rw [buildAvailability_append] at h
    unfold AvailabilityMap.set at h
    by_cases hk : key = x.1
    · simp only [hk, if_true, Option.some.injEq] at h
      subst hk
      rw [← h]
      simp
    · simp only [hk, if_false] at h
      exact List.mem_append_left _ (ih h)

/-- The results of a batch, position by position. -/
theorem mem_checkAll (post : Nat → String → String → String → Response)
    (docId slotDate : String) : ∀ (day : List Slot) (i : Nat) (x : (String × Bool) × List Effect),
    x ∈ checkAll post docId slotDate i day ↔
      ∃ k, ∃ h : k < day.length,
        x = ((slotDate ++ "_" ++ (day.get ⟨k, h⟩).time,
          (checkSlotAvailability (post (i + k) docId slotDate (day.get ⟨k, h⟩).time)).1),
          (checkSlotAvailability (post (i + k) docId slotDate (day.get ⟨k, h⟩).time)).2) := by
  intro day
  induction day with
  | nil => intro i x; simp [checkAll]
  | cons s rest ih =>
    intro i x
    simp only [checkAll, List.mem_cons, ih (i + 1) x]
    constructor
    · rintro (h | ⟨k, hk, h⟩)
      · exact ⟨0, by simp, by simpa using h⟩
      · refine ⟨k + 1, by simpa using hk, ?_⟩
        rw [h]
        simp only [List.get_eq_getElem, List.getElem_cons_succ, List.length_cons]
        rw [show i + 1 + k = i + (k + 1) by omega]
    · rintro ⟨k, hk, h⟩
      cases k with
      | zero => left; simpa using h
      | succ k =>
        right
        refine ⟨k, by simpa using hk, ?_⟩
        rw [h]
        simp only [List.get_eq_getElem, List.getElem_cons_succ, List.length_cons]
        rw [show i + 1 + k = i + (k + 1) by omega]

theorem mem_checkAll_results (post : Nat → String → String → String → Response)
    (docId slotDate : String) (day : List Slot) (r : String × Bool) :
    r ∈ (checkAll post docId slotDate 0 day).map (·.1) ↔
      ∃ k, ∃ h : k < day.length,
        r = (slotDate ++ "_" ++ (day.get ⟨k, h⟩).time,
          (checkSlotAvailability (post k docId slotDate (day.get ⟨k, h⟩).time)).1) := by
  rw [List.mem_map]
  constructor
  · rintro ⟨x, hx, rfl⟩
    obtain ⟨k, hk, rfl⟩ := (mem_checkAll post docId slotDate day 0 x).mp hx
    exact ⟨k, hk, by simp⟩
  · rintro ⟨k, hk, rfl⟩
    exact ⟨_, (mem_checkAll post docId slotDate day 0 _).mpr ⟨k, hk, rfl⟩, by simp⟩

theorem fetch_eq (post : Nat → String → String → String → Response) (docId : String)
    (docSlots : List (List Slot)) (prev : AvailabilityMap) (dayIndex : Nat)
    (first : Slot) (rest : List Slot) (h : docSlots[dayIndex]? = some (first :: rest)) :
    fetchAvailabilityForDay post docId docSlots prev dayIndex =
      .ok (buildAvailability
          ((checkAll post docId (slotDateOf first.datetime) 0 (first :: rest)).map (·.1)),
        ((checkAll post docId (slotDateOf first.datetime) 0 (first :: rest)).map (·.2)).flatten) := by
  unfold fetchAvailabilityForDay
  rw [h]

/-- C5: for every window, every index with a (non-empty) entry, every previous map and every
oracle, the completed reconciliation returns the map whose entries are exactly
`identifier_label ↦ oracle docId identifier label` for the slots of the entry, the
identifier being that of the first slot; nothing of the previous map is kept, and the
lookup of the renderer for a slot of the day gives the value of the oracle for that slot. -/
theorem fetch_roundtrip (docId : String) (oracle : String → String → String → Bool)
    (docSlots : List (List Slot)) (prev : AvailabilityMap) (dayIndex : Nat)
    (first : Slot) (rest : List Slot) (h : docSlots[dayIndex]? = some (first :: rest)) :
    ∃ m effects,
      fetchAvailabilityForDay (fun _ d date t => .ok (oracle d date t)) docId docSlots prev
        dayIndex = .ok (m, effects) ∧
      (∀ key b, m key = some b ↔ ∃ slot ∈ first :: rest,
        key = slotDateOf first.datetime ++ "_" ++ slot.time ∧
        b = oracle docId (slotDateOf first.datetime) slot.time) ∧
      (∀ slot ∈ first :: rest, isAvailable docSlots m dayIndex slot =
        some (oracle docId (slotDateOf first.datetime) slot.time)) := by
  have hmem := mem_checkAll_results (fun _ d date t => .ok (oracle d date t)) docId
    (slotDateOf first.datetime) (first :: rest)
  have hfun : ∀ r ∈ (checkAll (fun _ d date t => .ok (oracle d date t)) docId
        (slotDateOf first.datetime) 0 (first :: rest)).map (·.1),
      ∀ r' ∈ (checkAll (fun _ d date t => .ok (oracle d date t)) docId
        (slotDateOf first.datetime) 0 (first :: rest)).map (·.1), r.1 = r'.1 → r.2 = r'.2 := by
    intro r hr r' hr' e
    obtain ⟨k, hk, rfl⟩ := (hmem r).mp hr
    obtain ⟨k', hk', rfl⟩ := (hmem r').mp hr'
    have := (key_injective _ _ _ _ e).2
    simp only [checkSlotAvailability, this]
  have hslot : ∀ slot ∈ first :: rest,
      buildAvailability ((checkAll (fun _ d date t => .ok (oracle d date t)) docId
        (slotDateOf first.datetime) 0 (first :: rest)).map (·.1))
        (slotDateOf first.datetime ++ "_" ++ slot.time)
        = some (oracle docId (slotDateOf first.datetime) slot.time) := by
    intro slot hs
    obtain ⟨n, hn⟩ := List.get_of_mem hs
    exact buildAvailability_of_mem _ hfun
      (slotDateOf first.datetime ++ "_" ++ slot.time,
        oracle docId (slotDateOf first.datetime) slot.time)
      ((hmem _).mpr ⟨n.1, n.2, by rw [← hn]; rfl⟩)
  refine ⟨_, _, fetch_eq _ docId docSlots prev dayIndex first rest h, ?_, ?_⟩
  · intro key b
    constructor
    · intro hb
      obtain ⟨k, hk, e⟩ := (hmem _).mp (buildAvailability_some _ _ _ hb)
      simp only [Prod.mk.injEq, checkSlotAvailability] at e
      exact ⟨_, List.get_mem _ k hk, e.1, e.2⟩
    · rintro ⟨slot, hs, rfl, rfl⟩
      exact hslot slot hs
  · intro slot hs
    unfold isAvailable
    rw [h]
    exact hslot slot hs

theorem fetch_roundtrip_witness :
    ∃ m effects,
      fetchAvailabilityForDay (fun _ _ _ t => .ok (decide (t = "05:00 AM"))) "doc1"
        [[⟨⟨2025, 5, 10, 5, 0, 0, 0⟩, "05:00 AM"⟩, ⟨⟨2025, 5, 10, 5, 30, 0, 0⟩, "05:30 AM"⟩]]
        (AvailabilityMap.empty.set "9_6_2025_05:00 AM" true) 0 = .ok (m, effects) ∧
      m "10_6_2025_05:00 AM" = some true ∧ m "10_6_2025_05:30 AM" = some false ∧
      m "9_6_2025_05:00 AM" = none := by
  obtain ⟨m, effects, h1, h2, _⟩ := fetch_roundtrip "doc1"
    (fun _ _ t => decide (t = "05:00 AM"))
    [[⟨⟨2025, 5, 10, 5, 0, 0, 0⟩, "05:00 AM"⟩, ⟨⟨2025, 5, 10, 5, 30, 0, 0⟩, "05:30 AM"⟩]]
    (AvailabilityMap.empty.set "9_6_2025_05:00 AM" true) 0
    ⟨⟨2025, 5, 10, 5, 0, 0, 0⟩, "05:00 AM"⟩ [⟨⟨2025, 5, 10, 5, 30, 0, 0⟩, "05:30 AM"⟩] rfl
  refine ⟨m, effects, h1, ?_, ?_, ?_⟩
  · exact (h2 _ _).mpr ⟨_, List.mem_cons_self _ _, by decide, by decide⟩
  · exact (h2 _ _).mpr ⟨_, List.mem_cons_of_mem _ (List.mem_cons_self _ _), by decide, by decide⟩
  · cases hm : m "9_6_2025_05:00 AM" with
    | none => rfl
    | some b =>
      obtain ⟨slot, hs, hk, _⟩ := (h2 _ _).mp hm
      simp only [List.mem_cons, List.mem_singleton, List.not_mem_nil, or_false] at hs
      rcases hs with rfl | rfl <;> exact absurd hk (by decide)

/-- C6: for every day list with pairwise distinct time labels and every outcome of its
requests, the reconciliation completes; the key of a slot whose request failed maps to
`false` (and the failure is notified), and the key of every other slot maps to the value
its own request returned. -/
theorem fetch_failures_isolated (post : Nat → String → String → String → Response)
    (docId : String) (docSlots : List (List Slot)) (prev : AvailabilityMap) (dayIndex : Nat)
    (first : Slot) (rest : List Slot) (h : docSlots[dayIndex]? = some (first :: rest))
    (hnd : ((first :: rest).map Slot.time).Nodup) :
    ∃ m effects,
      fetchAvailabilityForDay post docId docSlots prev dayIndex = .ok (m, effects) ∧
      ∀ (k : Nat) (hk : k < (first :: rest).length),
        (∀ msg, post k docId (slotDateOf first.datetime) ((first :: rest).get ⟨k, hk⟩).time
            = .error msg →
          m (slotDateOf first.datetime ++ "_" ++ ((first :: rest).get ⟨k, hk⟩).time)
            = some false ∧ Effect.toastError msg ∈ effects) ∧
        (∀ b, post k docId (slotDateOf first.datetime) ((first :: rest).get ⟨k, hk⟩).time
            = .ok b →
          m (slotDateOf first.datetime ++ "_" ++ ((first :: rest).get ⟨k, hk⟩).time)
            = some b) := by
  have hmem := mem_checkAll_results post docId (slotDateOf first.datetime) (first :: rest)
  have hfun : ∀ r ∈ (checkAll post docId (slotDateOf first.datetime) 0 (first :: rest)).map (·.1),
      ∀ r' ∈ (checkAll post docId (slotDateOf first.datetime) 0 (first :: rest)).map (·.1),
      r.1 = r'.1 → r.2 = r'.2 := by
    intro r hr r' hr' e
    obtain ⟨k, hk, rfl⟩ := (hmem r).mp hr
    obtain ⟨k', hk', rfl⟩ := (hmem r').mp hr'
    have ht := (key_injective _ _ _ _ e).2
    have hkk : k = k' := by
      have h1 : ((first :: rest).map Slot.time).get ⟨k, by simpa using hk⟩
          = ((first :: rest).map Slot.time).get ⟨k', by simpa using hk'⟩ := by
        rw [List.get_eq_getElem, List.get_eq_getElem, List.getElem_map, List.getElem_map]
        simpa using ht
      have := (List.Nodup.get_inj_iff hnd).mp h1
      simpa using this
    subst hkk
    rfl
  have hval : ∀ (k : Nat) (hk : k < (first :: rest).length),
      buildAvailability ((checkAll post docId (slotDateOf first.datetime) 0
        (first :: rest)).map (·.1))
        (slotDateOf first.datetime ++ "_" ++ ((first :: rest).get ⟨k, hk⟩).time)
      = some (checkSlotAvailability (post k docId (slotDateOf first.datetime)
          ((first :: rest).get ⟨k, hk⟩).time)).1 := by
    intro k hk
    exact buildAvailability_of_mem _ hfun
      (slotDateOf first.datetime ++ "_" ++ ((first :: rest).get ⟨k, hk⟩).time,
        (checkSlotAvailability (post k docId (slotDateOf first.datetime)
          ((first :: rest).get ⟨k, hk⟩).time)).1)
      ((hmem _).mpr ⟨k, hk, rfl⟩)
  refine ⟨_, _, fetch_eq post docId docSlots prev dayIndex first rest h, ?_⟩
  intro k hk
  refine ⟨fun msg hp => ⟨?_, ?_⟩, fun b hp => ?_⟩
  · rw [hval k hk, hp]
    rfl
  · refine List.mem_flatten.mpr ⟨[.consoleLog msg, .toastError msg], ?_, by simp⟩
    refine List.mem_map.mpr ⟨_, (mem_checkAll post docId (slotDateOf first.datetime)
      (first :: rest) 0 _).mpr ⟨k, hk, rfl⟩, ?_⟩
    simp only [Nat.zero_add, hp]
    rfl
  · rw [hval k hk, hp]
    rfl

theorem fetch_failures_isolated_witness :
    ∃ m effects,
      fetchAvailabilityForDay
        (fun k _ _ _ => if k = 0 then .error "Network Error" else .ok true) "doc1"
        [[⟨⟨2025, 5, 10, 5, 0, 0, 0⟩, "05:00 AM"⟩, ⟨⟨2025, 5, 10, 5, 30, 0, 0⟩, "05:30 AM"⟩]]
        AvailabilityMap.empty 0 = .ok (m, effects) ∧
      m "10_6_2025_05:00 AM" = some false ∧ Effect.toastError "Network Error" ∈ effects ∧
      m "10_6_2025_05:30 AM" = some true := by
  obtain ⟨m, effects, h1, h2⟩ := fetch_failures_isolated
    (fun k _ _ _ => if k = 0 then .error "Network Error" else .ok true) "doc1"
    [[⟨⟨2025, 5, 10, 5, 0, 0, 0⟩, "05:00 AM"⟩, ⟨⟨2025, 5, 10, 5, 30, 0, 0⟩, "05:30 AM"⟩]]
    AvailabilityMap.empty 0
    ⟨⟨2025, 5, 10, 5, 0, 0, 0⟩, "05:00 AM"⟩ [⟨⟨2025, 5, 10, 5, 30, 0, 0⟩, "05:30 AM"⟩] rfl
    (by decide)
  have a := (h2 0 (by decide)).1 "Network Error" rfl
  have b := (h2 1 (by decide)).2 true rfl
  exact ⟨m, effects, h1, a.1, a.2, b⟩

/-! ## Booking -/

/-- C7: in every state of the page, a booking click with an absent or empty token performs
exactly a warning toast and one navigation to the login view: no request to the booking
endpoint, no refresh of the doctor data, and the state of the page is unchanged. -/
theorem book_without_token (fuel : Nat) (fmt : Nat → Nat → String) (docId : String)
    (s : Page) (token : Option String) (respond : String → String → String → BookingResponse)
    (h : token = none ∨ token = some "") :
    ∃ effects, step fuel fmt docId s (.bookClicked token respond) = some (s, effects) ∧
      effects = bookAppointment token respond docId s.docSlots s.slotIndex s.slotTime ∧
      effects = [.toastWarn "Login to book appointment", .navigate "/login"] ∧
      (∀ a b c, Effect.postBooking a b c ∉ effects) ∧
      Effect.getDoctorsData ∉ effects ∧
      effects.count (.navigate "/login") = 1 ∧
      (∀ p, Effect.navigate p ∈ effects → p = "/login") := by
  have hb : bookAppointment token respond docId s.docSlots s.slotIndex s.slotTime
      = [.toastWarn "Login to book appointment", .navigate "/login"] := by
    rcases h with rfl | rfl <;> rfl
  refine ⟨_, rfl, rfl, hb, ?_, ?_, ?_, ?_⟩
  · intro a b c; rw [hb]; simp
  · rw [hb]; simp
  · rw [hb]; decide
  · intro p; rw [hb]; simp

theorem book_without_token_witness :
    ∃ effects, step 40 toLocaleTimeString "doc1" Page.init
        (.bookClicked (some "") (fun _ _ _ => .ok (true, "Appointment booked")))
        = some (Page.init, effects) ∧
      effects = bookAppointment (some "") (fun _ _ _ => .ok (true, "Appointment booked")) "doc1"
        Page.init.docSlots Page.init.slotIndex Page.init.slotTime ∧
      effects = [.toastWarn "Login to book appointment", .navigate "/login"] ∧
      (∀ a b c, Effect.postBooking a b c ∉ effects) ∧
      Effect.getDoctorsData ∉ effects ∧
      effects.count (.navigate "/login") = 1 ∧
      (∀ p, Effect.navigate p ∈ effects → p = "/login") :=
  book_without_token 40 toLocaleTimeString "doc1" Page.init (some "")
    (fun _ _ _ => .ok (true, "Appointment booked")) (Or.inr rfl)

/-! ## The page state machine -/

theorem reachable_run (fuel : Nat) (fmt : Nat → Nat → String) (docId : String) :
    ∀ (evs : List Event) (s s' : Page), Reachable fuel fmt docId s →
      run fuel fmt docId s evs = some s' → Reachable fuel fmt docId s' := by
  intro evs
  induction evs with
  | nil =>
    intro s s' hs h
    simp only [run, Option.some.injEq] at h
    exact h ▸ hs
  | cons e es ih =>
    intro s s' hs h
    unfold run at h
    cases hst : step fuel fmt docId s e with
    | none => rw [hst] at h; simp at h
    | some p =>
      rw [hst] at h
      exact ih p.1 s' (Reachable.step hs hst) h

theorem fetch_keys (post : Nat → String → String → String → Response) (docId : String)
    (docSlots : List (List Slot)) (prev : AvailabilityMap) (dayIndex : Nat)
    (first : Slot) (rest : List Slot) (h : docSlots[dayIndex]? = some (first :: rest)) :
    ∃ m effects, fetchAvailabilityForDay post docId docSlots prev dayIndex = .ok (m, effects) ∧
      KeysOfDay m (first :: rest) := by
  refine ⟨_, _, fetch_eq post docId docSlots prev dayIndex first rest h, ?_⟩
  intro key
  rw [buildAvailability_ne_none]
  constructor
  · rintro ⟨r, hr, rfl⟩
    obtain ⟨k, hk, rfl⟩ := (mem_checkAll_results post docId _ _ r).mp hr
    exact ⟨first, rfl, _, List.get_mem _ k hk, rfl⟩
  · rintro ⟨f, hf, item, hitem, rfl⟩
    obtain rfl : first = f := by simpa using hf
    obtain ⟨n, hn⟩ := List.get_of_mem hitem
    exact ⟨_, (mem_checkAll_results post docId _ _ _).mpr ⟨n.1, n.2, rfl⟩, by rw [hn]⟩

/-- The completion of a batch, case by case on the entry it was started for. -/
theorem step_batchCompleted (fuel : Nat) (fmt : Nat → Nat → String) (docId : String)
    (s s' : Page) (k : Nat) (post : Nat → String → String → String → Response)
    (effects : List Effect)
    (h : step fuel fmt docId s (.batchCompleted k post) = some (s', effects)) :
    ∃ b, s.pending[k]? = some b ∧ s'.docSlots = s.docSlots ∧ s'.slotIndex = s.slotIndex ∧
      s'.slotTime = s.slotTime ∧ s'.pending = s.pending.eraseIdx k ∧
      (((∀ first rest, b.docSlots[b.dayIndex]? ≠ some (first :: rest)) ∧
          s'.availableSlots = s.availableSlots) ∨
        ∃ first rest, b.docSlots[b.dayIndex]? = some (first :: rest) ∧
          KeysOfDay s'.availableSlots (first :: rest)) := by
  simp only [step] at h
  cases hb : s.pending[k]? with
  | none => rw [hb] at h; simp at h
  | some b =>
    rw [hb] at h
    simp only [] at h
    refine ⟨b, rfl, ?_⟩
    cases hd : b.docSlots[b.dayIndex]? with
    | none =>
      simp only [fetchAvailabilityForDay, hd, Option.some.injEq, Prod.mk.injEq] at h
      obtain ⟨rfl, _⟩ := h
      exact ⟨rfl, rfl, rfl, rfl, Or.inl ⟨fun _ _ e => by simp at e, rfl⟩⟩
    | some day =>
      cases day with
      | nil =>
        simp only [fetchAvailabilityForDay, hd, Option.some.injEq, Prod.mk.injEq] at h
        obtain ⟨rfl, _⟩ := h
        exact ⟨rfl, rfl, rfl, rfl, Or.inl ⟨fun _ _ e => by simp at e, rfl⟩⟩
      | cons first rest =>
        obtain ⟨m, eff, hm, hk⟩ := fetch_keys post docId b.docSlots s.availableSlots
          b.dayIndex first rest hd
        rw [hm] at h
        simp only [Option.some.injEq, Prod.mk.injEq] at h
        obtain ⟨rfl, _⟩ := h
        exact ⟨rfl, rfl, rfl, rfl, Or.inr ⟨first, rest, rfl, hk⟩⟩

theorem step_preserves_inv (fuel : Nat) (fmt : Nat → Nat → String) (docId : String)
    (s s' : Page) (e : Event) (effects : List Effect) (hi : PageInv fuel fmt s)
    (h : step fuel fmt docId s e = some (s', effects)) : PageInv fuel fmt s' := by
  obtain ⟨hm, hp, hw⟩ := hi
  cases e with
  | slotsGenerated now =>
    simp only [step] at h
    split_ifs at h with hv
    cases hg : getAvailableSlots fuel fmt now with
    | none => rw [hg] at h; simp at h
    | some w =>
      rw [hg] at h
      simp only [Option.some.injEq, Prod.mk.injEq] at h
      obtain ⟨rfl, _⟩ := h
      have hgen : Generated fuel fmt w := Or.inr ⟨now, hv, hg⟩
      refine ⟨hm, ?_, hgen⟩
      intro b hb
      simp only [runEffect, List.mem_append, List.mem_singleton] at hb
      rcases hb with hb | rfl
      · exact hp b hb
      · exact hgen
  | daySelected index =>
    simp only [step] at h
    split_ifs at h with h1 h2
    · simp only [Option.some.injEq, Prod.mk.injEq] at h
      obtain ⟨rfl, _⟩ := h
      exact ⟨hm, hp, hw⟩
    · simp only [Option.some.injEq, Prod.mk.injEq] at h
      obtain ⟨rfl, _⟩ := h
      refine ⟨hm, ?_, hw⟩
      intro b hb
      simp only [runEffect, List.mem_append, List.mem_singleton] at hb
      rcases hb with hb | rfl
      · exact hp b hb
      · exact hw
  | batchCompleted k post =>
    obtain ⟨b, hb, e1, _, _, e4, hmap⟩ := step_batchCompleted fuel fmt docId s s' k post effects h
    have hbm : b ∈ s.pending := List.getElem?_mem hb
    refine ⟨?_, ?_, e1 ▸ hw⟩
    · rcases hmap with ⟨_, e⟩ | ⟨first, rest, hd, hk⟩
      · rw [e]; exact hm
      · exact Or.inr ⟨b.docSlots, b.dayIndex, first, rest, hp b hbm, hd, hk⟩
    · intro b' hb'
      rw [e4] at hb'
      exact hp b' (List.mem_of_mem_eraseIdx hb')
  | timeChosen time =>
    simp only [step] at h
    split_ifs at h
    simp only [Option.some.injEq, Prod.mk.injEq] at h
    obtain ⟨rfl, _⟩ := h
    exact ⟨hm, hp, hw⟩
  | bookClicked token respond =>
    simp only [step, Option.some.injEq, Prod.mk.injEq] at h
    obtain ⟨rfl, _⟩ := h
    exact ⟨hm, hp, hw⟩

theorem reachable_inv (fuel : Nat) (fmt : Nat → Nat → String) (docId : String) (s : Page)
    (hs : Reachable fuel fmt docId s) : PageInv fuel fmt s := by
  induction hs with
  | init => exact ⟨Or.inl rfl, by simp [Page.init], Or.inl rfl⟩
  | step _ hst ih => exact step_preserves_inv fuel fmt docId _ _ _ _ ih hst

/-! ## Claims about the page state -/

/-- C8 (evaluation at the failing input): on 10 June 2025 at 10:15 the user selects day
index 2 and then day index 0; the reconciliation for index 0 completes first and the one
for index 2 last. In the state reached, index 0 is selected and the map holds a key of
12 June, which is no key of the selected day. -/
theorem stale_batch_overwrites :
    ∃ s, run 40 toLocaleTimeString "doc1" Page.init
        [.slotsGenerated ⟨2025, 5, 10, 10, 15, 0, 0⟩, .batchCompleted 0 allAvailable,
          .daySelected 2, .daySelected 0, .batchCompleted 1 allAvailable,
          .batchCompleted 0 allAvailable] = some s ∧
      Reachable 40 toLocaleTimeString "doc1" s ∧ s.slotIndex = 0 ∧
      s.availableSlots "12_6_2025_05:00 AM" = some true ∧ ¬ KeysOfSelectedDay s := by
  have hfacts : (run 40 toLocaleTimeString "doc1" Page.init
      [.slotsGenerated ⟨2025, 5, 10, 10, 15, 0, 0⟩, .batchCompleted 0 allAvailable,
        .daySelected 2, .daySelected 0, .batchCompleted 1 allAvailable,
        .batchCompleted 0 allAvailable]).map
      (fun s => (s.slotIndex, s.availableSlots "12_6_2025_05:00 AM",
        (s.docSlots[s.slotIndex]?.bind List.head?).map (fun f => f.datetime.date)))
      = some (0, some true, some 10) := by
    set_option maxRecDepth 100000 in decide
  cases hr : run 40 toLocaleTimeString "doc1" Page.init
      [.slotsGenerated ⟨2025, 5, 10, 10, 15, 0, 0⟩, .batchCompleted 0 allAvailable,
        .daySelected 2, .daySelected 0, .batchCompleted 1 allAvailable,
        .batchCompleted 0 allAvailable] with
  | none => rw [hr] at hfacts; simp at hfacts
  | some s =>
    rw [hr] at hfacts
    simp only [Option.map_some', Option.some.injEq, Prod.mk.injEq] at hfacts
    obtain ⟨h1, h2, h3⟩ := hfacts
    refine ⟨s, rfl, reachable_run _ _ _ _ _ _ Reachable.init hr, h1, h2, ?_⟩
    intro hk
    obtain ⟨day, hd, f, hf, item, _, hkey⟩ := hk "12_6_2025_05:00 AM" (by rw [h2]; simp)
    have e : "12_6_2025_05:00 AM" = slotDateOf ⟨2025, 5, 12, 0, 0, 0, 0⟩ ++ "_" ++ "05:00 AM" := by
      decide
    rw [e] at hkey
    have hdate := (key_injective _ _ _ _ hkey).1.1
    have hf' : day.head? = some f := hf
    rw [hd] at h3
    simp only [Option.some_bind, hf', Option.map_some', Option.some.injEq] at h3
    rw [h3] at hdate
    exact absurd hdate (by decide)

/-- In every reachable state the map is empty or holds exactly the keys of one day list of
a generated window, and the completion of a pending reconciliation started for a day list
leaves a map with exactly the keys of that day list; when it was started for the window
and the index of the current state, these are keys of the selected day only. -/
theorem map_is_last_batch (fuel : Nat) (fmt : Nat → Nat → String) (docId : String) (s : Page)
    (hs : Reachable fuel fmt docId s) :
    OneBatchMap fuel fmt s.availableSlots ∧
    ∀ (k : Nat) (post : Nat → String → String → String → Response) (b : Batch)
      (first : Slot) (rest : List Slot),
      s.pending[k]? = some b → b.docSlots[b.dayIndex]? = some (first :: rest) →
      ∃ s' effects, step fuel fmt docId s (.batchCompleted k post) = some (s', effects) ∧
        s'.slotIndex = s.slotIndex ∧ s'.docSlots = s.docSlots ∧
        KeysOfDay s'.availableSlots (first :: rest) ∧
        (b.docSlots = s.docSlots → b.dayIndex = s.slotIndex → KeysOfSelectedDay s') := by
  refine ⟨(reachable_inv fuel fmt docId s hs).1, ?_⟩
  intro k post b first rest hb hd
  obtain ⟨m, eff, hm, hk⟩ := fetch_keys post docId b.docSlots s.availableSlots
    b.dayIndex first rest hd
  refine ⟨{ s with availableSlots := m, pending := s.pending.eraseIdx k }, eff, ?_, rfl, rfl,
    hk, ?_⟩
  · simp only [step, hb, hm]
  · intro e1 e2 key hkey
    refine ⟨first :: rest, ?_, (hk key).mp hkey⟩
    show s.docSlots[s.slotIndex]? = _
    rw [← e1, ← e2, hd]

theorem mem_renderedTimes (docSlots : List (List Slot)) (m : AvailabilityMap) (slotIndex : Nat)
    (time : String) (h : time ∈ renderedTimes docSlots m slotIndex) :
    ∃ day first, docSlots[slotIndex]? = some day ∧ day.head? = some first ∧
      time ∈ day.map Slot.time ∧ m (slotDateOf first.datetime ++ "_" ++ time) = some true := by
  unfold renderedTimes at h
  cases hd : docSlots[slotIndex]? with
  | none => rw [hd] at h; simp at h
  | some day =>
    rw [hd] at h
    obtain ⟨item, hitem, rfl⟩ := List.mem_map.mp h
    obtain ⟨hmem, hav⟩ := List.mem_filter.mp hitem
    simp only [decide_eq_true_eq] at hav
    unfold isAvailable at hav
    rw [hd] at hav
    cases day with
    | nil => simp at hmem
    | cons first rest =>
      exact ⟨first :: rest, first, rfl, rfl, List.mem_map.mpr ⟨item, hmem, rfl⟩, hav⟩

/-- What one event does to the chosen time. -/
theorem step_slotTime (fuel : Nat) (fmt : Nat → Nat → String) (docId : String)
    (s s' : Page) (e : Event) (effects : List Effect)
    (h : step fuel fmt docId s e = some (s', effects)) :
    (∀ now, e = .slotsGenerated now → s'.slotTime = "") ∧
    (∀ index, e = .daySelected index → index ≠ s.slotIndex → s'.slotTime = "") ∧
    (∀ time, e = .timeChosen time → s'.slotTime = time ∧ ChosenTimeAvailable s') ∧
    ((∀ k post, e ≠ .batchCompleted k post) → ChosenTimeAvailable s → ChosenTimeAvailable s') ∧
    (ChosenTimeOfSelectedDay s → ChosenTimeOfSelectedDay s') := by
  cases e with
  | slotsGenerated now =>
    simp only [step] at h
    split_ifs at h
    cases hg : getAvailableSlots fuel fmt now with
    | none => rw [hg] at h; simp at h
    | some w =>
      rw [hg] at h
      simp only [Option.some.injEq, Prod.mk.injEq] at h
      obtain ⟨rfl, _⟩ := h
      refine ⟨fun _ _ => rfl, fun _ _ _ => rfl, fun _ e => (by cases e), fun _ _ hne => ?_,
        fun _ hne => ?_⟩ <;> exact absurd rfl hne
  | daySelected index =>
    simp only [step] at h
    split_ifs at h with h1 h2
    · simp only [Option.some.injEq, Prod.mk.injEq] at h
      obtain ⟨rfl, _⟩ := h
      refine ⟨fun _ e => (by cases e), fun i e hne => ?_, fun _ e => (by cases e), fun _ hc => hc,
        fun hc => hc⟩
      simp only [Event.daySelected.injEq] at e
      exact absurd (e ▸ h2) hne
    · simp only [Option.some.injEq, Prod.mk.injEq] at h
      obtain ⟨rfl, _⟩ := h
      refine ⟨fun _ _ => rfl, fun _ _ _ => rfl, fun _ e => (by cases e), fun _ _ hne => ?_,
        fun _ hne => ?_⟩ <;> exact absurd rfl hne
  | batchCompleted k post =>
    obtain ⟨b, _, e1, e2, e3, _, _⟩ := step_batchCompleted fuel fmt docId s s' k post effects h
    refine ⟨fun _ e => (by cases e), fun _ e => (by cases e), fun _ e => (by cases e),
      fun hne => absurd rfl (hne k post), ?_⟩
    intro hc hne
    rw [e3] at hne
    rw [e1, e2, e3]
    exact hc hne
  | timeChosen time =>
    simp only [step] at h
    split_ifs at h with hr
    simp only [Option.some.injEq, Prod.mk.injEq] at h
    obtain ⟨rfl, _⟩ := h
    obtain ⟨day, first, hd, hf, hmem, hav⟩ := mem_renderedTimes _ _ _ _ hr
    have hca : ChosenTimeAvailable { s with slotTime := time } :=
      fun _ => ⟨day, first, hd, hf, hav⟩
    refine ⟨fun _ e => (by cases e), fun _ e => (by cases e), fun t e => ?_, fun _ _ => hca,
      fun _ _ => ⟨day, hd, hmem⟩⟩
    simp only [Event.timeChosen.injEq] at e
    exact ⟨e, hca⟩
  | bookClicked token respond =>
    simp only [step, Option.some.injEq, Prod.mk.injEq] at h
    obtain ⟨rfl, _⟩ := h
    exact ⟨fun _ e => (by cases e), fun _ e => (by cases e), fun _ e => (by cases e), fun _ hc => hc,
      fun hc => hc⟩

theorem reachable_chosenTime (fuel : Nat) (fmt : Nat → Nat → String) (docId : String)
    (s : Page) (hs : Reachable fuel fmt docId s) : ChosenTimeOfSelectedDay s := by
  induction hs with
  | init => intro h; exact absurd rfl h
  | step _ hst ih => exact (step_slotTime fuel fmt docId _ _ _ _ hst).2.2.2.2 ih

/-- C9 (counterexample): on 10 June 2025 the slots are generated at 10:15:00 and again at
10:15:01, so two reconciliations for the selected day (index 0) are running. The first
answers `true` for every slot and the user chooses 11:00 AM; then the second, which is
the reconciliation of the current window and day, answers `false`. In the state reached
the chosen time is still 11:00 AM and its key maps to `false`. -/
theorem current_batch_answers_false :
    ∃ s, run 40 toLocaleTimeString "doc1" Page.init
        [.slotsGenerated ⟨2025, 5, 10, 10, 15, 0, 0⟩, .slotsGenerated ⟨2025, 5, 10, 10, 15, 1, 0⟩,
          .batchCompleted 0 allAvailable, .timeChosen "11:00 AM",
          .batchCompleted 0 noneAvailable] = some s ∧
      Reachable 40 toLocaleTimeString "doc1" s ∧ s.slotIndex = 0 ∧
      s.slotTime = "11:00 AM" ∧
      s.availableSlots "10_6_2025_11:00 AM" = some false ∧ ¬ ChosenTimeAvailable s := by
  have hfacts : (run 40 toLocaleTimeString "doc1" Page.init
      [.slotsGenerated ⟨2025, 5, 10, 10, 15, 0, 0⟩, .slotsGenerated ⟨2025, 5, 10, 10, 15, 1, 0⟩,
        .batchCompleted 0 allAvailable, .timeChosen "11:00 AM",
        .batchCompleted 0 noneAvailable]).map
      (fun s => (s.slotTime, s.availableSlots "10_6_2025_11:00 AM",
        (s.docSlots[s.slotIndex]?.bind List.head?).map (fun f => f.day)))
      = some ("11:00 AM", some false, some (2025, 5, 10)) := by
    set_option maxRecDepth 100000 in decide
  have hidx : (run 40 toLocaleTimeString "doc1" Page.init
      [.slotsGenerated ⟨2025, 5, 10, 10, 15, 0, 0⟩, .slotsGenerated ⟨2025, 5, 10, 10, 15, 1, 0⟩,
        .batchCompleted 0 allAvailable, .timeChosen "11:00 AM",
        .batchCompleted 0 noneAvailable]).map (fun s => s.slotIndex) = some 0 := by
    set_option maxRecDepth 100000 in decide
  cases hr : run 40 toLocaleTimeString "doc1" Page.init
      [.slotsGenerated ⟨2025, 5, 10, 10, 15, 0, 0⟩, .slotsGenerated ⟨2025, 5, 10, 10, 15, 1, 0⟩,
        .batchCompleted 0 allAvailable, .timeChosen "11:00 AM",
        .batchCompleted 0 noneAvailable] with
  | none => rw [hr] at hfacts; simp at hfacts
  | some s =>
    rw [hr] at hfacts hidx
    simp only [Option.map_some', Option.some.injEq, Prod.mk.injEq] at hfacts hidx
    obtain ⟨h1, h2, h3⟩ := hfacts
    refine ⟨s, rfl, reachable_run _ _ _ _ _ _ Reachable.init hr, hidx, h1, h2, ?_⟩
    intro hc
    obtain ⟨day, first, hd, hf, hav⟩ := hc (by rw [h1]; decide)
    rw [hd] at h3
    simp only [Option.some_bind, hf, Option.map_some', Option.some.injEq, Slot.day,
      Prod.mk.injEq] at h3
    obtain ⟨e1, e2, e3⟩ := h3
    have hk : slotDateOf first.datetime ++ "_" ++ s.slotTime = "10_6_2025_11:00 AM" := by
      rw [h1, slotDateOf, e1, e2, e3]
      decide
    rw [hk, h2] at hav
    exact absurd hav (by simp)

/-- C9 (amended): in every reachable state a non-empty chosen time is the label of a slot of
the selected day; regenerating the slots and selecting another day reset the chosen time
to empty; choosing a time leads to a state where the key of the chosen time for the
selected day maps to `true`; every event other than the completion of a reconciliation
preserves that property; and the completion of the reconciliation started for the current
window and index leaves the key of a non-empty chosen time present in the map, with the
value of the new answer. -/
theorem chosen_time_invariant (fuel : Nat) (fmt : Nat → Nat → String) (docId : String)
    (s : Page) (hs : Reachable fuel fmt docId s) :
    ChosenTimeOfSelectedDay s ∧
    (∀ (e : Event) (s' : Page) (effects : List Effect),
      step fuel fmt docId s e = some (s', effects) →
      (∀ now, e = .slotsGenerated now → s'.slotTime = "") ∧
      (∀ index, e = .daySelected index → index ≠ s.slotIndex → s'.slotTime = "") ∧
      (∀ time, e = .timeChosen time → s'.slotTime = time ∧ ChosenTimeAvailable s') ∧
      ((∀ k post, e ≠ .batchCompleted k post) →
        ChosenTimeAvailable s → ChosenTimeAvailable s')) ∧
    (∀ (k : Nat) (post : Nat → String → String → String → Response) (b : Batch)
      (s' : Page) (effects : List Effect),
      s.pending[k]? = some b → b.docSlots = s.docSlots → b.dayIndex = s.slotIndex →
      step fuel fmt docId s (.batchCompleted k post) = some (s', effects) →
      s'.slotTime ≠ "" →
      ∃ day first value, s'.docSlots[s'.slotIndex]? = some day ∧ day.head? = some first ∧
        s'.availableSlots (slotDateOf first.datetime ++ "_" ++ s'.slotTime) = some value) := by
  have hsel := reachable_chosenTime fuel fmt docId s hs
  refine ⟨hsel, fun e s' effects h => ?_, ?_⟩
  · obtain ⟨h1, h2, h3, h4, _⟩ := step_slotTime fuel fmt docId s s' e effects h
    exact ⟨h1, h2, h3, h4⟩
  · intro k post b s' effects hb e1 e2 hstep hne
    obtain ⟨b', hb', d1, d2, d3, _, hmap⟩ :=
      step_batchCompleted fuel fmt docId s s' k post effects hstep
    rw [hb] at hb'
    obtain rfl : b = b' := by simpa using hb'
    rw [d3] at hne
    obtain ⟨day, hday, hmem⟩ := hsel hne
    obtain ⟨item, hitem, htime⟩ := List.mem_map.mp hmem
    cases day with
    | nil => simp at hitem
    | cons first rest =>
      have hentry : b.docSlots[b.dayIndex]? = some (first :: rest) := by rw [e1, e2, hday]
      rcases hmap with ⟨hno, _⟩ | ⟨first', rest', hd', hk⟩
      · exact absurd hentry (hno first rest)
      · rw [hentry] at hd'
        simp only [Option.some.injEq, List.cons.injEq] at hd'
        obtain ⟨rfl, rfl⟩ := hd'
        have hpres : s'.availableSlots (slotDateOf first.datetime ++ "_" ++ s.slotTime)
            ≠ none := (hk _).mpr ⟨first, rfl, item, hitem, by rw [htime]⟩
        obtain ⟨value, hv⟩ := Option.ne_none_iff_exists'.mp hpres
        exact ⟨first :: rest, first, value, by rw [d1, d2, hday], rfl, by rw [d3]; exact hv⟩

theorem chosen_time_invariant_witness :
    ∃ s, run 40 toLocaleTimeString "doc1" Page.init
        [.slotsGenerated ⟨2025, 5, 10, 10, 15, 0, 0⟩, .batchCompleted 0 allAvailable,
          .timeChosen "11:00 AM"] = some s ∧
      s.slotTime = "11:00 AM" ∧ ChosenTimeOfSelectedDay s := by
  have hfacts : (run 40 toLocaleTimeString "doc1" Page.init
      [.slotsGenerated ⟨2025, 5, 10, 10, 15, 0, 0⟩, .batchCompleted 0 allAvailable,
        .timeChosen "11:00 AM"]).map (fun s => s.slotTime) = some "11:00 AM" := by
    set_option maxRecDepth 100000 in decide
  cases hr : run 40 toLocaleTimeString "doc1" Page.init
      [.slotsGenerated ⟨2025, 5, 10, 10, 15, 0, 0⟩, .batchCompleted 0 allAvailable,
        .timeChosen "11:00 AM"] with
  | none => rw [hr] at hfacts; simp at hfacts
  | some s =>
    rw [hr] at hfacts
    exact ⟨s, rfl, by simpa using hfacts,
      (chosen_time_invariant 40 toLocaleTimeString "doc1" s
        (reachable_run _ _ _ _ _ _ Reachable.init hr)).1⟩

/-! ## Further properties of the generator -/

/-- Outside the hour from 05:00 to 05:59 today's start is rounded up: for every valid `now`
whose hour is not 5, no slot generated for today is before `now`. -/
theorem today_slots_not_before_now (fuel : Nat) (fmt : Nat → Nat → String) (today : JSDate)
    (hv : today.Valid) (hf : 33 ≤ fuel) (h5 : today.hours ≠ 5) :
    ∃ l, timeSlotsForDay fuel fmt today 0 = some l ∧
      ∀ s ∈ l, s.datetime.before today = false := by
  refine ⟨_, timeSlotsForDay_eq fuel fmt today hv hf 0 (by omega), ?_⟩
  intro s hs
  simp only [dayList, if_true] at hs
  obtain ⟨k, _, rfl⟩ := mem_slotsFrom _ _ _ _ _ hs
  obtain ⟨_, _, _, hh, hmin, _, _⟩ := hv
  have hstart : today.hours * 60 + today.minutes
      ≤ startHour today.hours * 60 + startMinute today.minutes := by
    unfold startHour startMinute
    split_ifs <;> omega
  simp only [JSDate.before, mkSlot, atClock, JSDate.msOfDay, ne_eq, not_true_eq_false,
    if_false, decide_eq_false_iff_not, not_lt]
  omega

theorem today_slots_not_before_now_witness :
    ∃ l, timeSlotsForDay 40 toLocaleTimeString ⟨2025, 5, 10, 6, 45, 30, 500⟩ 0 = some l ∧
      ∀ s ∈ l, s.datetime.before ⟨2025, 5, 10, 6, 45, 30, 500⟩ = false :=
  today_slots_not_before_now 40 toLocaleTimeString ⟨2025, 5, 10, 6, 45, 30, 500⟩
    (by decide) (by decide) (by decide)

/-- When the formatter gives different labels to different clock times, the time labels of
every day list of a generated window are pairwise distinct. -/
theorem generated_labels_nodup (fuel : Nat) (fmt : Nat → Nat → String) (today : JSDate)
    (hv : today.Valid) (hf : 33 ≤ fuel)
    (hinj : ∀ h m h' m', h < 24 → m < 60 → h' < 24 → m' < 60 →
      fmt h m = fmt h' m' → h = h' ∧ m = m') :
    ∃ w, getAvailableSlots fuel fmt today = some w ∧
      ∀ day ∈ w, (day.map Slot.time).Nodup := by
  have hnd : ∀ (d : JSDate) (t n : Nat), (∀ k, k < n → t + 30 * k < 1260) →
      ((slotsFrom fmt d t n).map Slot.time).Nodup := by
    intro d t n hlt
    unfold slotsFrom
    rw [List.map_map]
    apply List.Nodup.map_on _ (List.nodup_range n)
    intro a ha b hb e
    have ha' := hlt a (List.mem_range.mp ha)
    have hb' := hlt b (List.mem_range.mp hb)
    simp only [Function.comp, mkSlot, atClock] at e
    obtain ⟨e1, e2⟩ := hinj _ _ _ _ (by omega) (by omega) (by omega) (by omega) e
    omega
  refine ⟨_, getAvailableSlots_eq fuel fmt today hv hf, ?_⟩
  intro day hday
  have hsub := (window_sublist fmt today).subset hday
  obtain ⟨i, _, rfl⟩ := List.mem_map.mp hsub
  unfold dayList
  split_ifs
  · exact hnd _ _ _ (slotCount_spec _).2
  · exact hnd _ _ _ (fun k hk => by omega)

theorem twoDigit_length : ∀ n, n < 60 → (twoDigit n).data.length = 2 := by decide

theorem twoDigit_injective : ∀ a, a < 60 → ∀ b, b < 60 → twoDigit a = twoDigit b → a = b := by
  decide

/-- The modelled 12-hour rendering gives different labels to different clock times. -/
theorem toLocaleTimeString_injective (h m h' m' : Nat) (hh : h < 24) (hm : m < 60)
    (hh' : h' < 24) (hm' : m' < 60)
    (e : toLocaleTimeString h m = toLocaleTimeString h' m') : h = h' ∧ m = m' := by
  have h12 : ∀ x : Nat, (if x % 12 = 0 then 12 else x % 12) < 60 := by
    intro x; split_ifs <;> omega
  have e1 := congrArg String.data e
  simp only [toLocaleTimeString, String.data_append, List.append_assoc] at e1
  obtain ⟨a1, a2⟩ := List.append_inj e1
    (by rw [twoDigit_length _ (h12 h), twoDigit_length _ (h12 h')])
  have a3 : (twoDigit m).data ++ (if h < 12 then " AM" else " PM").data
      = (twoDigit m').data ++ (if h' < 12 then " AM" else " PM").data := by
    simpa using a2
  obtain ⟨b1, b2⟩ := List.append_inj a3
    (by rw [twoDigit_length _ hm, twoDigit_length _ hm'])
  have c1 := twoDigit_injective _ (h12 h) _ (h12 h') (String.ext a1)
  have c2 := twoDigit_injective _ hm _ hm' (String.ext b1)
  refine ⟨?_, c2⟩
  have c3 : (h < 12 ↔ h' < 12) := by
    by_cases x : h < 12 <;> by_cases y : h' < 12 <;> simp [x, y] at b2 ⊢
  split_ifs at c1 <;> omega

theorem generated_labels_nodup_witness :
    ∃ w, getAvailableSlots 40 toLocaleTimeString ⟨2025, 5, 10, 10, 15, 0, 0⟩ = some w ∧
      ∀ day ∈ w, (day.map Slot.time).Nodup :=
  generated_labels_nodup 40 toLocaleTimeString ⟨2025, 5, 10, 10, 15, 0, 0⟩ (by decide)
    (by decide) toLocaleTimeString_injective

/-! ## Further properties of reconciliation and booking -/

/-- The result of a reconciliation for an index with a non-empty entry does not depend on
the previous map: run twice against the same answers it gives the same map. -/
theorem fetch_independent_of_previous (post : Nat → String → String → String → Response)
    (docId : String) (docSlots : List (List Slot)) (prev prev' : AvailabilityMap)
    (dayIndex : Nat) (first : Slot) (rest : List Slot)
    (h : docSlots[dayIndex]? = some (first :: rest)) :
    fetchAvailabilityForDay post docId docSlots prev dayIndex =
      fetchAvailabilityForDay post docId docSlots prev' dayIndex := by
  rw [fetch_eq post docId docSlots prev dayIndex first rest h,
    fetch_eq post docId docSlots prev' dayIndex first rest h]

theorem fetch_independent_of_previous_witness :
    fetchAvailabilityForDay allAvailable "doc1"
        [[⟨⟨2025, 5, 10, 5, 0, 0, 0⟩, "05:00 AM"⟩]] AvailabilityMap.empty 0 =
      fetchAvailabilityForDay allAvailable "doc1"
        [[⟨⟨2025, 5, 10, 5, 0, 0, 0⟩, "05:00 AM"⟩]]
        (AvailabilityMap.empty.set "9_6_2025_05:00 AM" true) 0 :=
  fetch_independent_of_previous allAvailable "doc1" _ _ _ 0
    ⟨⟨2025, 5, 10, 5, 0, 0, 0⟩, "05:00 AM"⟩ [] rfl

/-- A booking with a token that the endpoint accepts posts one request for the identifier
of the selected day and the chosen time, shows the message, refreshes the doctor data once
and navigates once, to the appointments list. -/
theorem book_success (respond : String → String → String → BookingResponse)
    (token docId : String) (docSlots : List (List Slot)) (slotIndex : Nat) (slotTime : String)
    (first : Slot) (rest : List Slot) (message : String) (ht : token ≠ "")
    (hd : docSlots[slotIndex]? = some (first :: rest))
    (hr : respond docId (slotDateOf first.datetime) slotTime = .ok (true, message)) :
    bookAppointment (some token) respond docId docSlots slotIndex slotTime =
      [.postBooking docId (slotDateOf first.datetime) slotTime, .toastSuccess message,
        .getDoctorsData, .navigate "/my-appoinments"] := by
  have : tokenMissing (some token) = false := by simpa [tokenMissing] using ht
  simp [bookAppointment, this, hd, hr]

theorem book_success_witness :
    bookAppointment (some "jwt") (fun _ _ _ => .ok (true, "Appointment Booked")) "doc1"
        [[⟨⟨2025, 5, 10, 5, 0, 0, 0⟩, "05:00 AM"⟩]] 0 "05:00 AM" =
      [.postBooking "doc1" "10_6_2025" "05:00 AM", .toastSuccess "Appointment Booked",
        .getDoctorsData, .navigate "/my-appoinments"] :=
  book_success (fun _ _ _ => .ok (true, "Appointment Booked")) "jwt" "doc1"
    [[⟨⟨2025, 5, 10, 5, 0, 0, 0⟩, "05:00 AM"⟩]] 0 "05:00 AM"
    ⟨⟨2025, 5, 10, 5, 0, 0, 0⟩, "05:00 AM"⟩ [] "Appointment Booked" (by decide) rfl rfl

end Appointment
